import Mathlib

/-!
# dvln/cast: a shallow embedding of `cast.go` and `caste.go`

The package converts a dynamically typed Go value (`interface{}`) to a fixed
target type.  The development below embeds

* the dynamic values the type switches of `caste.go` distinguish (`Value`),
* the two indirection helpers, the fallible coercions (`To…E`) and the
  error-discarding wrappers of `cast.go`,
* the pieces of the Go standard library whose behaviour the package relies on
  and that are simple enough to embed (`strconv.ParseBool`, `strconv.ParseInt`,
  `strconv.FormatInt`, `strings.Fields`),

and takes the remaining standard-library functions (floating point, the
`time` package) as the fields of a `Lib` record.

Conventions.
* A Go result `(T, error)` is the pair `T × Option Err`; `none` is the `nil` error.
* A call that can panic has an `Outcome`: it returns its result or it panics.
* A Go string is a Lean `String` (so only valid UTF-8 texts are covered).
* A Go slice or map is `Option (List _)`; `none` is the `nil` slice or map.
* Machine integers are `Int`s; conversions to `int` wrap to 64 bits.
-/

namespace Cast

/-! ## Data model -/

/-- IEEE-754 binary64 value, kept as its bit pattern; the pattern `0` is `+0.0`. -/
structure Float64 where
  bits : Nat
deriving DecidableEq, Repr

/-- IEEE-754 binary32 value, kept as its bit pattern. -/
structure Float32 where
  bits : Nat
deriving DecidableEq, Repr

/-- Instant of `time.Time`, counted in nanoseconds from the zero instant `time.Time{}`. -/
structure Time where
  nanos : Int
deriving DecidableEq, Repr

/-- Value of `time.Duration`, an `int64` count of nanoseconds. -/
structure Duration where
  nanos : Int
deriving DecidableEq, Repr

/-- Zero value `0.0` of `float64`. -/
def Float64.zero : Float64 := ⟨0⟩

/-- Zero value `time.Time{}`. -/
def Time.zero : Time := ⟨0⟩

/-- Zero value of `time.Duration`. -/
def Duration.zero : Duration := ⟨0⟩

/-- Errors the package and the embedded library functions return.  The texts
built with `%#v` are not reproduced; an error is identified by its origin. -/
inductive Err where
  /-- Result of `fmt.Errorf("Unable to Cast %#v to <target>", i)`. -/
  | unableToCast (target : String)
  /-- Value `strconv.ErrSyntax` wrapped in a `NumError`. -/
  | invalidLiteral
  /-- Value `strconv.ErrRange` wrapped in a `NumError`. -/
  | outOfRange
  /-- Error of `time.ParseDuration`. -/
  | badDuration
  /-- Result of `fmt.Errorf("Could not parse Date/Time format: %v\n", e)`. -/
  | dateTimeFormat
  /-- Result of `fmt.Errorf("Unable to parse date: %s", s)`. -/
  | unableToParseDate (s : String)
deriving DecidableEq, Repr

/-- Outcome of a call that can panic. -/
inductive Outcome (α : Type) where
  /-- The call returns `a`. -/
  | returns (a : α)
  /-- The call panics and returns nothing. -/
  | panics
deriving DecidableEq, Repr

/-- Result of a call followed by `f`; a panic goes through. -/
def Outcome.map {α β : Type} (f : α → β) : Outcome α → Outcome β
  | .returns a => .returns (f a)
  | .panics => .panics

/-- Two calls in a row, the second on the result of the first; a panic of either goes through. -/
def Outcome.bind {α β : Type} (o : Outcome α) (f : α → Outcome β) : Outcome β :=
  match o with
  | .returns a => f a
  | .panics => .panics

/-- Result of a call that returns, `d` for one that panics (for stating lemmas). -/
def Outcome.getD {α : Type} (o : Outcome α) (d : α) : α :=
  match o with
  | .returns a => a
  | .panics => d

/-- What the dynamic type of a value offers to `fmt.Stringer` and `error`:
`stringer = some t` when the type has a `String()` method, which returns `t`
on this value, and likewise `error` for `Error()`.  A method called on a
value it can be called on is taken to return; the call that cannot return, a
value-receiver method on a nil pointer, has its own constructor in `Value`. -/
structure Methods where
  stringer : Option String
  error : Option String
deriving DecidableEq, Repr

/-- Method set of a type with neither `String()` nor `Error()`. -/
def Methods.none : Methods := ⟨Option.none, Option.none⟩

/-- Test `v.Type().Implements(fmtStringerType) || v.Type().Implements(errorType)`. -/
def Methods.implements (m : Methods) : Bool :=
  m.stringer.isSome || m.error.isSome

/-- Dynamic values, split the way the type switches and the `reflect` calls of
`caste.go` split them. -/
inductive Value where
  /-- The untyped `nil` interface. -/
  | nil
  | bool (b : Bool)
  | int (n : Int)
  | int8 (n : Int)
  | int16 (n : Int)
  | int32 (n : Int)
  | int64 (n : Int)
  | float32 (f : Float32)
  | float64 (f : Float64)
  | string (s : String)
  /-- A `[]byte` holding the bytes of `b`. -/
  | bytes (b : String)
  /-- A `template.HTML`. -/
  | html (s : String)
  | time (t : Time)
  | duration (d : Duration)
  /-- A `map[interface{}]interface{}`, its entries in iteration order. -/
  | mapAny (m : Option (List (Value × Value)))
  /-- A `map[string]interface{}`. -/
  | mapStr (m : Option (List (String × Value)))
  /-- A `map[string]string`. -/
  | mapStrStr (m : Option (List (String × String)))
  /-- A `map[string]bool`. -/
  | mapStrBool (m : Option (List (String × Bool)))
  /-- A `[]interface{}`. -/
  | sliceAny (xs : Option (List Value))
  /-- A `[]map[string]interface{}`. -/
  | sliceMapStr (xs : Option (List (Option (List (String × Value)))))
  /-- A `[]string`. -/
  | sliceStr (xs : Option (List String))
  /-- A `[]int`. -/
  | sliceInt (xs : Option (List Int))
  /-- A slice or array of any other type; `xs` are its elements as `Index(j).Interface()` returns them. -/
  | seq (m : Methods) (xs : List Value)
  /-- A nil pointer whose type has the method set `m`; a method in `m` has a
  pointer receiver and returns on the nil pointer. -/
  | ptrNil (m : Methods)
  /-- A nil pointer whose type takes the method `ToStringE` calls on it
  (`String()`, or `Error()` when there is no `String()`) from a value receiver,
  as `(*time.Time)(nil)` does: the type implements the interface, and the call
  dereferences the nil pointer and panics. -/
  | ptrNilValueMethod
  /-- A non-nil pointer to a variable of concrete type holding `v`. -/
  | ptr (m : Methods) (v : Value)
  /-- A non-nil pointer to a variable of interface type holding `v`. -/
  | ptrIface (v : Value)
  /-- A value of any other type (unsigned integers, structs, named types, channels, …). -/
  | other (m : Methods)

/-- Elements of a slice, none for the `nil` slice. -/
def elems {α : Type} : Option (List α) → List α
  | some xs => xs
  | none => []

/-- Standard-library functions the package calls and this development does not
embed.  A parser returns `none` where the Go function returns a non-nil error;
`time.Parse` and `time.ParseDuration` return the zero value with every error. -/
structure Lib where
  /-- Function `strconv.ParseFloat(s, 64)`. -/
  ParseFloat : String → Option Float64
  /-- Function `strconv.FormatFloat(f, 'f', -1, 64)`. -/
  FormatFloat : Float64 → String
  /-- Conversion `float64(n)` of an integer. -/
  floatOfInt : Int → Float64
  /-- Conversion `float64(f)` of a `float32`. -/
  floatOfFloat32 : Float32 → Float64
  /-- Conversion `int(f)` of a `float64`. -/
  intOfFloat : Float64 → Int
  /-- Function `time.Parse(layout, value)`. -/
  timeParse : String → String → Option Time
  /-- Function `time.ParseDuration`. -/
  ParseDuration : String → Option Duration
  /-- Method `time.Time.String`. -/
  timeString : Time → String
  /-- Method `time.Duration.String`. -/
  durationString : Duration → String

/-- Conversion of an integer to the 64 bit `int`: the value modulo `2^64`, read as a signed number. -/
def toInt (n : Int) : Int :=
  (n + 2 ^ 63) % 2 ^ 64 - 2 ^ 63

/-! ## Indirection helpers (`caste.go`, 151-184) -/

/-- Function `indirect`: follows non-nil pointers; `Elem()` of a pointer to an
interface variable has kind `Interface`, so the loop stops there and
`Interface()` hands out the value the variable holds. -/
def indirect : Value → Value
  | .ptr _ v => indirect v
  | .ptrIface v => v
  | a => a

/-- Function `indirectToStringerOrError`: as `indirect`, but the loop also
stops at a value whose type implements `fmt.Stringer` or `error`. -/
def indirectToStringerOrError : Value → Value
  | .ptr m v => if m.implements then .ptr m v else indirectToStringerOrError v
  | .ptrIface v => v
  | a => a

/-! ## `strconv.ParseBool` -/

/-- Function `strconv.ParseBool`. -/
def ParseBool (str : String) : Bool × Option Err :=
  match str with
  | "1" | "t" | "T" | "TRUE" | "true" | "True" => (true, none)
  | "0" | "f" | "F" | "FALSE" | "false" | "False" => (false, none)
  | _ => (false, some .invalidLiteral)

/-! ## Scalar coercions (`caste.go`, 19-145) -/

/-- Function `ToBoolE`. -/
def ToBoolE (i : Value) : Bool × Option Err :=
  match indirect i with
  | .bool b => (b, none)
  | .nil => (false, none)
  | .int n => if n ≠ 0 then (true, none) else (false, none)
  | .string s => ParseBool s
  | _ => (false, some (.unableToCast "bool"))

/-- Function `ToFloat64E`. -/
def ToFloat64E (L : Lib) (i : Value) : Float64 × Option Err :=
  match indirect i with
  | .float64 s => (s, none)
  | .float32 s => (L.floatOfFloat32 s, none)
  | .int64 s => (L.floatOfInt s, none)
  | .int32 s => (L.floatOfInt s, none)
  | .int16 s => (L.floatOfInt s, none)
  | .int8 s => (L.floatOfInt s, none)
  | .int s => (L.floatOfInt s, none)
  | .string s =>
    match L.ParseFloat s with
    | some v => (v, none)
    | none => (Float64.zero, some (.unableToCast "float"))
  | _ => (Float64.zero, some (.unableToCast "float"))

/-! ## `strconv.FormatInt` and `strconv.ParseInt` -/

/-- Byte of the decimal digit `d`. -/
def digitChar (d : Nat) : Char := Char.ofNat (48 + d)

/-- Digit loop of `formatBits` at base 10, writing right to left in front of
`acc`: `for u >= 10 { q := u / 10; a[i] = '0' + u - q*10; u = q }; a[i] = '0' + u`.
(The library writes two digits per round from a table; the text is the same.) -/
def formatBits (u : Nat) (acc : List Char) : List Char :=
  if 10 ≤ u then formatBits (u / 10) (digitChar (u % 10) :: acc)
  else digitChar u :: acc
termination_by u
decreasing_by omega

/-- Function `strconv.FormatInt(i, 10)` on an `int64`: `uint64(i)`, negated
(modulo `2^64`) when `i < 0`, is written in decimal behind the sign. -/
def FormatInt (i : Int) : String :=
  let u := (i % 2 ^ 64).toNat
  if i < 0 then String.mk ('-' :: formatBits ((2 ^ 64 - u) % 2 ^ 64) [])
  else String.mk (formatBits u [])

/-- Helper `lower` of `strconv`: `c | ('x' - 'X')`. -/
def lower (c : Nat) : Nat := c ||| 32

/-- Digit value of the byte `c` in `ParseUint`, none where the library reports a bad literal. -/
def digitVal (c : Nat) : Option Nat :=
  if 48 ≤ c ∧ c ≤ 57 then some (c - 48)
  else if 97 ≤ lower c ∧ lower c ≤ 122 then some (lower c - 97 + 10)
  else none

/-- Largest `uint64`. -/
def maxUint64 : Nat := 2 ^ 64 - 1

/-- Digit loop of `ParseUint` called with base 0 (so underscores are skipped
and remembered) and 64 bits.  Returns the value, the error and whether an
underscore was seen. -/
def parseDigits (base : Nat) : List Char → Nat → Bool → Nat × Option Err × Bool
  | [], n, us => (n, none, us)
  | c :: cs, n, us =>
    if c = '_' then parseDigits base cs n true
    else
      match digitVal c.toNat with
      | none => (0, some .invalidLiteral, us)
      | some d =>
        if base ≤ d then (0, some .invalidLiteral, us)
        else if maxUint64 / base + 1 ≤ n then (maxUint64, some .outOfRange, us)
        else
          let n1 := (n * base + d) % 2 ^ 64
          if n1 < n * base ∨ maxUint64 < n1 then (maxUint64, some .outOfRange, us)
          else parseDigits base cs n1 us

/-- Loop of `underscoreOK`; `saw` is the class of the last character. -/
def underscoreLoop (hex : Bool) : List Char → Char → Bool
  | [], saw => saw != '_'
  | c :: cs, saw =>
    if (48 ≤ c.toNat ∧ c.toNat ≤ 57) ∨ (hex = true ∧ 97 ≤ lower c.toNat ∧ lower c.toNat ≤ 102) then
      underscoreLoop hex cs '0'
    else if c = '_' then
      if saw ≠ '0' then false else underscoreLoop hex cs '_'
    else if saw = '_' then false
    else underscoreLoop hex cs '!'

/-- Function `underscoreOK` of `strconv`: underscores separate digits only. -/
def underscoreOK (s : List Char) : Bool :=
  let s := match s with
    | '-' :: r => r
    | '+' :: r => r
    | _ => s
  match s with
  | '0' :: c :: r =>
    if lower c.toNat = 98 ∨ lower c.toNat = 111 ∨ lower c.toNat = 120 then
      underscoreLoop (lower c.toNat = 120) r '0'
    else underscoreLoop false s '^'
  | _ => underscoreLoop false s '^'

/-- Function `strconv.ParseUint(s, 0, 0)`: the base is read off the text
(`0b`, `0o`, `0x`, a leading `0`, else ten) and the value must fit 64 bits. -/
def ParseUint (s : List Char) : Nat × Option Err :=
  match s with
  | [] => (0, some .invalidLiteral)
  | c0 :: rest =>
    let bd : Nat × List Char :=
      if c0 = '0' then
        match rest with
        | c1 :: c2 :: r =>
          if lower c1.toNat = 98 then (2, c2 :: r)
          else if lower c1.toNat = 111 then (8, c2 :: r)
          else if lower c1.toNat = 120 then (16, c2 :: r)
          else (8, rest)
        | _ => (8, rest)
      else (10, s)
    match parseDigits bd.1 bd.2 0 false with
    | (n, some e, _) => (n, some e)
    | (n, none, us) =>
      if us = true ∧ underscoreOK s = false then (0, some .invalidLiteral)
      else (n, none)

/-- Function `strconv.ParseInt(s, 0, 0)` on a 64 bit platform. -/
def ParseInt (s : String) : Int × Option Err :=
  match s.toList with
  | [] => (0, some .invalidLiteral)
  | c :: rest =>
    let neg : Bool := c = '-'
    let body := if c = '+' ∨ c = '-' then rest else c :: rest
    match ParseUint body with
    | (_, some .invalidLiteral) => (0, some .invalidLiteral)
    | (un, _) =>
      let cutoff : Nat := 2 ^ 63
      if neg = false ∧ cutoff ≤ un then ((cutoff : Int) - 1, some .outOfRange)
      else if neg = true ∧ cutoff < un then (-(cutoff : Int), some .outOfRange)
      else
        let n := toInt un
        (if neg then toInt (-n) else n, none)

/-- Function `ToIntE`. -/
def ToIntE (L : Lib) (i : Value) : Int × Option Err :=
  match indirect i with
  | .int s => (s, none)
  | .int64 s => (toInt s, none)
  | .int32 s => (toInt s, none)
  | .int16 s => (toInt s, none)
  | .int8 s => (toInt s, none)
  | .string s =>
    match ParseInt s with
    | (v, none) => (toInt v, none)
    | (_, some _) => (0, some (.unableToCast "int"))
  | .float64 s => (L.intOfFloat s, none)
  | .bool s => if s then (1, none) else (0, none)
  | .nil => (0, none)
  | _ => (0, some (.unableToCast "int"))

/-! ## String coercion (`caste.go`, 188-212) -/

/-- Cases `fmt.Stringer`, `error` and `default` of the type switch of
`ToStringE`, for a value whose type has the method set `m`. -/
def renderMethods (m : Methods) : String × Option Err :=
  match m.stringer with
  | some t => (t, none)
  | none =>
    match m.error with
    | some t => (t, none)
    | none => ("", some (.unableToCast "string"))

/-- Function `ToStringE`.  `time.Time` and `time.Duration` have a `String`
method; the other built-in types have no methods.  The cases `fmt.Stringer`
and `error` call the method on the value the switch holds, also when that is
a nil pointer. -/
def ToStringE (L : Lib) (i : Value) : Outcome (String × Option Err) :=
  match indirectToStringerOrError i with
  | .string s => .returns (s, none)
  | .float64 f => .returns (L.FormatFloat f, none)
  | .int n => .returns (FormatInt (toInt n), none)
  | .bytes b => .returns (b, none)
  | .html s => .returns (s, none)
  | .nil => .returns ("", none)
  | .time t => .returns (L.timeString t, none)
  | .duration d => .returns (L.durationString d, none)
  | .seq m _ => .returns (renderMethods m)
  | .ptrNil m => .returns (renderMethods m)
  | .ptrNilValueMethod => .panics
  | .ptr m _ => .returns (renderMethods m)
  | .other m => .returns (renderMethods m)
  | _ => .returns ("", some (.unableToCast "string"))

/-! ## Time and duration (`caste.go`, 19-53 and 366-391) -/

/-- Function `parseDateWith`: the first layout `time.Parse` accepts decides. -/
def parseDateWith (L : Lib) (s : String) : List String → Time × Option Err
  | [] => (Time.zero, some (.unableToParseDate s))
  | dateType :: rest =>
    match L.timeParse dateType s with
    | some d => (d, none)
    | none => parseDateWith L s rest

/-- Layout `time.RFC3339`. -/
def RFC3339 : String := "2006-01-02T15:04:05Z07:00"

/-- Layout `time.RFC1123Z`. -/
def RFC1123Z : String := "Mon, 02 Jan 2006 15:04:05 -0700"

/-- Layout `time.RFC1123`. -/
def RFC1123 : String := "Mon, 02 Jan 2006 15:04:05 MST"

/-- Layout `time.RFC822Z`. -/
def RFC822Z : String := "02 Jan 06 15:04 -0700"

/-- Layout `time.RFC822`. -/
def RFC822 : String := "02 Jan 06 15:04 MST"

/-- Layout `time.ANSIC`. -/
def ANSIC : String := "Mon Jan _2 15:04:05 2006"

/-- Layout `time.UnixDate`. -/
def UnixDate : String := "Mon Jan _2 15:04:05 MST 2006"

/-- Layout `time.RubyDate`. -/
def RubyDate : String := "Mon Jan 02 15:04:05 -0700 2006"

/-- Layout list that `StringToDate` hands to `parseDateWith`. -/
def dateLayouts : List String :=
  [ RFC3339,
    "2006-01-02T15:04:05", -- iso8601 without timezone
    RFC1123Z,
    RFC1123,
    RFC822Z,
    RFC822,
    ANSIC,
    UnixDate,
    RubyDate,
    "2006-01-02 15:04:05Z07:00",
    "02 Jan 06 15:04 MST",
    "2006-01-02",
    "02 Jan 2006" ]

/-- Function `StringToDate`. -/
def StringToDate (L : Lib) (s : String) : Time × Option Err :=
  parseDateWith L s dateLayouts

/-- Function `ToTimeE`. -/
def ToTimeE (L : Lib) (i : Value) : Time × Option Err :=
  match indirect i with
  | .time s => (s, none)
  | .string s =>
    match StringToDate L s with
    | (d, none) => (d, none)
    | (_, some _) => (Time.zero, some .dateTimeFormat)
  | _ => (Time.zero, some (.unableToCast "Time"))

/-- Function `ToDurationE`. -/
def ToDurationE (L : Lib) (i : Value) : Duration × Option Err :=
  match indirect i with
  | .duration s => (s, none)
  | .string s =>
    match L.ParseDuration s with
    | some d => (d, none)
    | none => (Duration.zero, some .badDuration)
  | _ => (Duration.zero, some (.unableToCast "Duration"))

/-! ## Error-discarding wrappers (`cast.go`) -/

/-- Function `ToBool`. -/
def ToBool (i : Value) : Bool := (ToBoolE i).1

/-- Function `ToTime`. -/
def ToTime (L : Lib) (i : Value) : Time := (ToTimeE L i).1

/-- Function `ToDuration`. -/
def ToDuration (L : Lib) (i : Value) : Duration := (ToDurationE L i).1

/-- Function `ToFloat64`. -/
def ToFloat64 (L : Lib) (i : Value) : Float64 := (ToFloat64E L i).1

/-- Function `ToInt`. -/
def ToInt (L : Lib) (i : Value) : Int := (ToIntE L i).1

/-- Function `ToString`. -/
def ToString (L : Lib) (i : Value) : Outcome String := (ToStringE L i).map Prod.fst

/-! ## `strings.Fields` -/

/-- Function `unicode.IsSpace`: the Latin-1 switch, then the `White_Space` table. -/
def isSpace (r : Char) : Bool :=
  let n := r.toNat
  if n ≤ 255 then
    (9 ≤ n && n ≤ 13) || n == 32 || n == 0x85 || n == 0xA0
  else
    n == 0x1680 || (0x2000 ≤ n && n ≤ 0x200a) || n == 0x2028 || n == 0x2029 ||
      n == 0x202f || n == 0x205f || n == 0x3000

/-- Scanning loop of `strings.Fields` (`FieldsFunc` with `unicode.IsSpace`).
The library remembers where the current field starts and cuts `s[start:i]` at
the next space; here `cur` holds the runes read since that start, last one
first, and `acc` the fields cut so far, last one first. -/
def fieldsLoop : List Char → Option (List Char) → List String → List String
  | [], none, acc => acc.reverse
  | [], some f, acc => (String.mk f.reverse :: acc).reverse
  | c :: cs, cur, acc =>
    if isSpace c then
      match cur with
      | some f => fieldsLoop cs none (String.mk f.reverse :: acc)
      | none => fieldsLoop cs none acc
    else
      match cur with
      | some f => fieldsLoop cs (some (c :: f)) acc
      | none => fieldsLoop cs (some [c]) acc

/-- Function `strings.Fields`. -/
def Fields (s : String) : List String :=
  fieldsLoop s.toList none []

/-! ## Collection coercions (`caste.go`, 217-362) -/

/-- Assignment `m[k] = v` on a map kept as the list of its entries. -/
def mapSet {β : Type} (m : List (String × β)) (k : String) (v : β) : List (String × β) :=
  match m with
  | [] => [(k, v)]
  | e :: rest => if e.1 = k then (k, v) :: rest else e :: mapSet rest k v

/-- Read `m[k]` on a map kept as the list of its entries. -/
def mapGet {β : Type} (m : List (String × β)) (k : String) : Option β :=
  match m with
  | [] => none
  | e :: rest => if e.1 = k then some e.2 else mapGet rest k

/-- Built-in `append(s, u)`; the result is never the `nil` slice. -/
def goAppend {α : Type} (s : Option (List α)) (u : α) : Option (List α) :=
  some (elems s ++ [u])

/-- A `for ... range` loop over `es` whose body works on the state `s` and can
panic; the first panic ends the loop. -/
def rangeLoop {α σ : Type} (body : σ → α → Outcome σ) : List α → σ → Outcome σ
  | [], s => .returns s
  | e :: es, s =>
    match body s e with
    | .returns s1 => rangeLoop body es s1
    | .panics => .panics

/-- Function `ToStringMapStringE`. -/
def ToStringMapStringE (L : Lib) (i : Value) :
    Outcome (Option (List (String × String)) × Option Err) :=
  match i with
  | .mapAny v =>
    (rangeLoop (fun m e =>
        (ToString L e.1).bind fun k => (ToString L e.2).map fun val => mapSet m k val)
      (elems v) []).map fun m => (some m, none)
  | .mapStr v =>
    (rangeLoop (fun m e =>
        (ToString L (.string e.1)).bind fun k => (ToString L e.2).map fun val => mapSet m k val)
      (elems v) []).map fun m => (some m, none)
  | .mapStrStr v => .returns (v, none)
  | _ => .returns (some [], some (.unableToCast "map[string]string"))

/-- Function `ToStringMapBoolE`. -/
def ToStringMapBoolE (L : Lib) (i : Value) :
    Outcome (Option (List (String × Bool)) × Option Err) :=
  match i with
  | .mapAny v =>
    (rangeLoop (fun m e => (ToString L e.1).map fun k => mapSet m k (ToBool e.2))
      (elems v) []).map fun m => (some m, none)
  | .mapStr v =>
    (rangeLoop (fun m e => (ToString L (.string e.1)).map fun k => mapSet m k (ToBool e.2))
      (elems v) []).map fun m => (some m, none)
  | .mapStrBool v => .returns (v, none)
  | _ => .returns (some [], some (.unableToCast "map[string]bool"))

/-- Function `ToStringMapE`. -/
def ToStringMapE (L : Lib) (i : Value) :
    Outcome (Option (List (String × Value)) × Option Err) :=
  match i with
  | .mapAny v =>
    (rangeLoop (fun m e => (ToString L e.1).map fun k => mapSet m k e.2)
      (elems v) []).map fun m => (some m, none)
  | .mapStr v => .returns (v, none)
  | _ => .returns (some [], some (.unableToCast "map[string]interface\x7b\x7d"))

/-- Function `ToSliceE`; `s` starts as the `nil` slice. -/
def ToSliceE (i : Value) : Option (List Value) × Option Err :=
  match i with
  | .sliceAny v => ((elems v).foldl (fun s u => goAppend s u) none, none)
  | .sliceMapStr v => ((elems v).foldl (fun s u => goAppend s (Value.mapStr u)) none, none)
  | _ => (none, some (.unableToCast "[]interface\x7b\x7d"))

/-- Function `ToStringSliceE`; `a` starts as the `nil` slice. -/
def ToStringSliceE (L : Lib) (i : Value) : Outcome (Option (List String) × Option Err) :=
  match i with
  | .sliceAny v =>
    (rangeLoop (fun a u => (ToString L u).map fun t => goAppend a t)
      (elems v) none).map fun a => (a, none)
  | .sliceStr v => .returns (v, none)
  | .string v => .returns (some (Fields v), none)
  | _ => .returns (none, some (.unableToCast "[]string"))

/-- Elements `s.Index(j).Interface()`, `j < s.Len()`, of a value whose
`reflect` kind is `Slice` or `Array`; none for every other kind. -/
def reflectElems : Value → Option (List Value)
  | .bytes b => some (List.replicate b.utf8ByteSize (.other Methods.none))
  | .sliceAny xs => some (elems xs)
  | .sliceMapStr xs => some ((elems xs).map Value.mapStr)
  | .sliceStr xs => some ((elems xs).map Value.string)
  | .sliceInt xs => some ((elems xs).map Value.int)
  | .seq _ xs => some xs
  | _ => none

/-- Loop of `ToIntSliceE` over the elements; none is the early return on the
first element `ToIntE` rejects. -/
def intSliceLoop (L : Lib) : List Value → Option (List Int)
  | [] => some []
  | x :: xs =>
    match ToIntE L x with
    | (val, none) =>
      match intSliceLoop L xs with
      | some a => some (val :: a)
      | none => none
    | (_, some _) => none

/-- Function `ToIntSliceE`. -/
def ToIntSliceE (L : Lib) (i : Value) : Option (List Int) × Option Err :=
  match i with
  | .nil => (some [], some (.unableToCast "[]int"))
  | .sliceInt v => (v, none)
  | _ =>
    match reflectElems i with
    | some xs =>
      match intSliceLoop L xs with
      | some a => (some a, none)
      | none => (some [], some (.unableToCast "[]int"))
    | none => (some [], some (.unableToCast "[]int"))

/-! ## Specification-side definitions -/

/-- Spec-side definition, in the words of the claim on `ToStringSliceE`:
`MaximalRuns s ws` says that `ws` lists, in order, the maximal runs of
non-whitespace characters of `s`.  Reading `s` from the left, a whitespace
character belongs to no run, and a run is a non-empty block of non-whitespace
characters that ends where `s` ends or a whitespace character follows. -/
inductive MaximalRuns : List Char → List (List Char) → Prop where
  | nil : MaximalRuns [] []
  | space (c : Char) (s : List Char) (ws : List (List Char)) :
      isSpace c = true → MaximalRuns s ws → MaximalRuns (c :: s) ws
  | word (w s : List Char) (ws : List (List Char)) :
      w ≠ [] → (∀ c ∈ w, isSpace c = false) → (∀ c ∈ s.head?, isSpace c = true) →
      MaximalRuns s ws → MaximalRuns (w ++ s) (w :: ws)

/-- Spec-side definition: `a` is a non-nil pointer. -/
def isNonNilPointer : Value → Bool
  | .ptr _ _ => true
  | .ptrIface _ => true
  | _ => false

/-- Spec-side definition: `a` is a pointer, nil or not. -/
def isPointer : Value → Bool
  | .ptrNil _ => true
  | .ptrNilValueMethod => true
  | a => isNonNilPointer a

/-- Spec-side definition: the pointer chain that starts at `a` runs through
variables of concrete type only, never through a variable of interface type. -/
def concreteChain : Value → Bool
  | .ptr _ v => concreteChain v
  | .ptrIface _ => false
  | _ => true

/-- Spec-side definition: the chain of non-nil pointers, with method sets
`ms` (outermost first), that ends at `v`; each points to a variable of
concrete type. -/
def pointerChain : List Methods → Value → Value
  | [], v => v
  | m :: ms, v => .ptr m (pointerChain ms v)

/-- Spec-side definition: `a` is a value at which dereferencing for string
coercion may stop: a value whose type implements `fmt.Stringer` or `error`, a
non-pointer value, or a nil pointer. -/
def restsForString : Value → Bool
  | .ptr m _ => m.implements
  | .ptrIface _ => false
  | _ => true

/-- Spec-side definition: value of the character with code `n` as a digit:
`0`-`9`, then `a`-`z` or `A`-`Z` for ten to thirty-five. -/
def specDigit (n : Nat) : Option Nat :=
  if 48 ≤ n ∧ n ≤ 57 then some (n - 48)
  else if 97 ≤ n ∧ n ≤ 122 then some (n - 87)
  else if 65 ≤ n ∧ n ≤ 90 then some (n - 55)
  else none

/-- Spec-side definition: value of the digits `ds` in base `b` behind the
value `n` already read; none when a character is no digit of base `b`. -/
def specValue (b : Nat) : List Char → Nat → Option Nat
  | [], n => some n
  | c :: cs, n =>
    match specDigit c.toNat with
    | some d => if d < b then specValue b cs (n * b + d) else none
    | none => none

/-- Spec-side definition: value of a numeral, a non-empty text of digits of base `b`. -/
def specNumeral (b : Nat) (ds : List Char) : Option Nat :=
  match ds with
  | [] => none
  | _ :: _ => specValue b ds 0

/-- Spec-side definition, in the words of the claim on `ToIntE`: the value of
an unsigned literal with auto-detected base; a `0x` (or `0X`) start selects
hexadecimal, a leading `0` selects octal, otherwise the base is ten. -/
def specMagnitude (body : List Char) : Option Nat :=
  match body with
  | [] => none
  | c0 :: rest =>
    if c0 = '0' then
      match rest with
      | c1 :: ds => if c1 = 'x' ∨ c1 = 'X' then specNumeral 16 ds else specNumeral 8 body
      | [] => specNumeral 8 body
    else specNumeral 10 body

/-- Spec-side definition: the text behind an optional sign. -/
def unsignedPart (cs : List Char) : List Char :=
  match cs with
  | [] => []
  | c :: rest => if c = '+' ∨ c = '-' then rest else c :: rest

/-- Spec-side definition, in the words of the claim on `ToIntE`: the value of
an optionally signed literal with auto-detected base; none when the text is no
valid literal of its base or the value does not fit the 64 bit `int`. -/
def specParseInt (s : String) : Option Int :=
  match specMagnitude (unsignedPart s.toList) with
  | none => none
  | some m =>
    let v : Int := if s.toList.head? = some '-' then -(m : Int) else (m : Int)
    if -2 ^ 63 ≤ v ∧ v < 2 ^ 63 then some v else none

/-- Spec-side definition: `s` uses a literal form of current Go that the claim
on `ToIntE` does not describe: an underscore, or a `0b` or `0o` start behind
the optional sign. -/
def extendedForm (s : String) : Bool :=
  s.toList.contains '_' ||
    match unsignedPart s.toList with
    | c0 :: c1 :: _ => c0 == '0' && (c1 == 'b' || c1 == 'B' || c1 == 'o' || c1 == 'O')
    | _ => false

/-- Proof helper: the last step of `ParseUint`, from the result `r` of the
digit loop on the text `s` to the result of the function. -/
def uintResult (s : List Char) (r : Nat × Option Err × Bool) : Nat × Option Err :=
  match r with
  | (n, some e, _) => (n, some e)
  | (n, none, us) =>
    if us = true ∧ underscoreOK s = false then (0, some .invalidLiteral)
    else (n, none)

/-- Proof helper: the last step of `ParseInt`, from the sign and the result
`r` of `ParseUint` to the result of the function. -/
def intResult (neg : Bool) (r : Nat × Option Err) : Int × Option Err :=
  match r with
  | (_, some .invalidLiteral) => (0, some .invalidLiteral)
  | (un, _) =>
    let cutoff : Nat := 2 ^ 63
    if neg = false ∧ cutoff ≤ un then ((cutoff : Int) - 1, some .outOfRange)
    else if neg = true ∧ cutoff < un then (-(cutoff : Int), some .outOfRange)
    else
      let n := toInt un
      (if neg then toInt (-n) else n, none)

/-- A stand-in library for evaluating the definitions on concrete inputs:
every parser rejects its argument and every formatter returns the empty text. -/
def demoLib : Lib where
  ParseFloat := fun _ => none
  FormatFloat := fun _ => ""
  floatOfInt := fun n => ⟨n.toNat⟩
  floatOfFloat32 := fun f => ⟨f.bits⟩
  intOfFloat := fun f => f.bits
  timeParse := fun _ _ => none
  ParseDuration := fun _ => none
  timeString := fun _ => ""
  durationString := fun _ => ""

/-! ## Helper lemmas -/

theorem ParseBool_err_false (s : String) : (ParseBool s).2 ≠ none → (ParseBool s).1 = false := by
  unfold ParseBool
  split <;> simp

theorem ToBoolE_err_false (i : Value) : (ToBoolE i).2 ≠ none → (ToBoolE i).1 = false := by
  unfold ToBoolE
  generalize indirect i = v
  cases v <;> simp
  · split <;> simp
  · exact ParseBool_err_false _

theorem ToIntE_err_zero (L : Lib) (i : Value) : (ToIntE L i).2 ≠ none → (ToIntE L i).1 = 0 := by
  unfold ToIntE
  generalize indirect i = v
  cases v <;> simp
  · split <;> simp
  · split <;> simp

theorem renderMethods_err_empty (m : Methods) :
    (renderMethods m).2 ≠ none → (renderMethods m).1 = "" := by
  unfold renderMethods
  split
  · simp
  · split <;> simp

theorem ToStringE_err_empty (L : Lib) (i : Value) (s : String) (e : Err)
    (h : ToStringE L i = .returns (s, some e)) : s = "" := by
  unfold ToStringE at h
  generalize indirectToStringerOrError i = v at h
  have key : ∀ m, renderMethods m = (s, some e) → s = "" := by
    intro m hm
    have := renderMethods_err_empty m (by rw [hm]; simp)
    rw [hm] at this
    exact this
  cases v <;> first
    | exact Outcome.noConfusion h
    | (injection h with h; injection h with h1 h2; exact Option.noConfusion h2)
    | (injection h with h; injection h with h1 h2; exact h1.symm)
    | (injection h with h; exact key _ h)

theorem Outcome.map_eq_returns {α β : Type} (f : α → β) (o : Outcome α) (b : β) :
    o.map f = .returns b ↔ ∃ a, o = .returns a ∧ f a = b := by
  cases o with
  | returns a => simp [Outcome.map]
  | panics => simp [Outcome.map]

theorem Outcome.eq_returns_getD {α : Type} (o : Outcome α) (d : α) (h : o ≠ .panics) :
    o = .returns (o.getD d) := by
  cases o with
  | returns a => rfl
  | panics => exact absurd rfl h

theorem Outcome.returns_injective {α : Type} :
    Function.Injective (Outcome.returns : α → Outcome α) :=
  fun _ _ h => Outcome.returns.inj h

theorem ToString_of_ToStringE (L : Lib) (i : Value) (s : String) (e : Option Err)
    (h : ToStringE L i = .returns (s, e)) : ToString L i = .returns s := by
  unfold ToString
  rw [h]
  rfl

theorem rangeLoop_returns {α σ : Type} (body : σ → α → Outcome σ) (step : σ → α → σ)
    (es : List α) (s : σ) (h : ∀ e ∈ es, ∀ t, body t e = .returns (step t e)) :
    rangeLoop body es s = .returns (es.foldl step s) := by
  induction es generalizing s with
  | nil => rfl
  | cons e rest ih =>
    simp only [rangeLoop, h e (List.mem_cons_self _ _) s, List.foldl_cons]
    exact ih _ (fun x hx t => h x (List.mem_cons_of_mem _ hx) t)

theorem ToFloat64E_err_zero (L : Lib) (i : Value) :
    (ToFloat64E L i).2 ≠ none → (ToFloat64E L i).1 = Float64.zero := by
  unfold ToFloat64E
  generalize indirect i = v
  cases v <;> simp
  split <;> simp

theorem ToDurationE_err_zero (L : Lib) (i : Value) :
    (ToDurationE L i).2 ≠ none → (ToDurationE L i).1 = Duration.zero := by
  unfold ToDurationE
  generalize indirect i = v
  cases v <;> simp
  split <;> simp

theorem ToTimeE_err_zero (L : Lib) (i : Value) :
    (ToTimeE L i).2 ≠ none → (ToTimeE L i).1 = Time.zero := by
  unfold ToTimeE
  generalize indirect i = v
  cases v <;> simp
  split <;> simp

theorem toInt_of_range (n : Int) (h1 : -2 ^ 63 ≤ n) (h2 : n < 2 ^ 63) : toInt n = n := by
  unfold toInt
  omega

/-! ### Decimal round trip -/

theorem digitChar_facts (d : Nat) (h : d < 10) :
    (digitChar d).toNat = 48 + d ∧ digitChar d ≠ '_' ∧ digitChar d ≠ '+' ∧ digitChar d ≠ '-' ∧
      digitVal (digitChar d).toNat = some d ∧ (digitChar d = '0' ↔ d = 0) := by
  interval_cases d <;> decide

theorem formatBits_acc (u : Nat) (acc : List Char) :
    formatBits u acc = formatBits u [] ++ acc := by
  induction u using Nat.strong_induction_on generalizing acc with
  | _ u ih =>
    rw [formatBits]
    conv_rhs => rw [formatBits]
    by_cases h : 10 ≤ u
    · simp only [h, if_true]
      rw [ih (u / 10) (by omega) (digitChar (u % 10) :: acc),
        ih (u / 10) (by omega) [digitChar (u % 10)]]
      simp
    · simp [h]

theorem formatBits_step (u : Nat) (h : 10 ≤ u) :
    formatBits u [] = formatBits (u / 10) [] ++ [digitChar (u % 10)] := by
  conv_lhs => rw [formatBits]
  simp only [h, if_true]
  exact formatBits_acc _ _

theorem formatBits_small (u : Nat) (h : u < 10) : formatBits u [] = [digitChar u] := by
  rw [formatBits]
  simp [Nat.not_le.mpr h]

theorem parseDigits_append (base : Nat) (xs ys : List Char) (n : Nat) (us : Bool) :
    parseDigits base (xs ++ ys) n us =
      match parseDigits base xs n us with
      | (m, none, us1) => parseDigits base ys m us1
      | r => r := by
  induction xs generalizing n us with
  | nil => simp [parseDigits]
  | cons c cs ih =>
    simp only [List.cons_append, parseDigits]
    by_cases hc : c = '_'
    · simp only [hc, if_true]
      exact ih n true
    · simp only [hc, if_false]
      cases hd : digitVal c.toNat with
      | none => simp
      | some d =>
        simp only []
        by_cases hb : base ≤ d
        · simp [hb]
        · simp only [hb, if_false]
          by_cases hcut : maxUint64 / base + 1 ≤ n
          · simp [hcut]
          · simp only [hcut, if_false]
            by_cases hov : (n * base + d) % 2 ^ 64 < n * base ∨
                maxUint64 < (n * base + d) % 2 ^ 64
            · rw [if_pos hov, if_pos hov]
            · rw [if_neg hov, if_neg hov]
              exact ih _ us

theorem parseDigits_digit (n d : Nat) (us : Bool) (hd : d < 10) (hn : n * 10 + d < 2 ^ 64) :
    parseDigits 10 [digitChar d] n us = (n * 10 + d, none, us) := by
  obtain ⟨-, h1, -, -, h2, -⟩ := digitChar_facts d hd
  have hcut : ¬ (maxUint64 / 10 + 1 ≤ n) := by
    unfold maxUint64
    omega
  have hmod : (n * 10 + d) % 18446744073709551616 = n * 10 + d := Nat.mod_eq_of_lt hn
  have hov : ¬ ((n * 10 + d) < n * 10 ∨ maxUint64 < (n * 10 + d)) := by
    unfold maxUint64
    omega
  have hle : n * 10 + d ≤ maxUint64 := by
    unfold maxUint64
    omega
  simp [parseDigits, h1, h2, Nat.not_le.mpr hd, hcut, hmod, hov, hle]

theorem parseDigits_formatBits (u : Nat) (h : u < 2 ^ 64) :
    parseDigits 10 (formatBits u []) 0 false = (u, none, false) := by
  induction u using Nat.strong_induction_on with
  | _ u ih =>
    by_cases h10 : 10 ≤ u
    · rw [formatBits_step u h10, parseDigits_append, ih (u / 10) (by omega) (by omega)]
      simp only []
      rw [parseDigits_digit (u / 10) (u % 10) false (by omega) (by omega)]
      have : u / 10 * 10 + u % 10 = u := by omega
      rw [this]
    · rw [formatBits_small u (by omega)]
      have := parseDigits_digit 0 u false (by omega) (by omega)
      simpa using this

theorem formatBits_head (u : Nat) (h : 0 < u) :
    ∃ d rest, formatBits u [] = digitChar d :: rest ∧ 0 < d ∧ d < 10 := by
  induction u using Nat.strong_induction_on with
  | _ u ih =>
    by_cases h10 : 10 ≤ u
    · obtain ⟨d, rest, hr, hd⟩ := ih (u / 10) (by omega) (by omega)
      exact ⟨d, rest ++ [digitChar (u % 10)], by rw [formatBits_step u h10, hr]; rfl, hd⟩
    · exact ⟨u, [], formatBits_small u (by omega), h, by omega⟩

theorem ParseUint_formatBits (u : Nat) (h : u < 2 ^ 64) :
    ParseUint (formatBits u []) = (u, none) := by
  by_cases h0 : u = 0
  · subst h0
    rw [formatBits_small 0 (by omega)]
    decide
  · obtain ⟨d, rest, hr, hd0, hd⟩ := formatBits_head u (by omega)
    have hp := parseDigits_formatBits u h
    rw [hr] at hp
    have hne : digitChar d ≠ '0' := fun hc => by
      have := (digitChar_facts d hd).2.2.2.2.2.mp hc
      omega
    rw [hr]
    simp [ParseUint, hne, hp]

theorem formatBits_toList_head (u : Nat) (h : u < 2 ^ 64) :
    ∃ c rest, formatBits u [] = c :: rest ∧ c ≠ '+' ∧ c ≠ '-' := by
  by_cases h0 : u = 0
  · subst h0
    exact ⟨'0', [], by rw [formatBits_small 0 (by omega)]; rfl, by decide, by decide⟩
  · obtain ⟨d, rest, hr, _, hd⟩ := formatBits_head u (by omega)
    obtain ⟨-, -, h1, h2, -, -⟩ := digitChar_facts d hd
    exact ⟨_, rest, hr, h1, h2⟩

theorem ParseInt_signed (body : List Char) (u : Nat) (hu : u ≤ 2 ^ 63)
    (hp : ParseUint body = (u, none)) :
    ParseInt (String.mk ('-' :: body)) = (toInt (-toInt (u : Int)), none) := by
  have hcut : ¬ (9223372036854775808 < u) := by omega
  simp only [ParseInt, String.toList]
  simp [hp, hcut]

theorem ParseInt_unsigned (c : Char) (rest : List Char) (u : Nat) (hu : u < 2 ^ 63)
    (hc1 : c ≠ '+') (hc2 : c ≠ '-') (hp : ParseUint (c :: rest) = (u, none)) :
    ParseInt (String.mk (c :: rest)) = (toInt (u : Int), none) := by
  have hcut : ¬ (9223372036854775808 ≤ u) := by omega
  simp only [ParseInt, String.toList]
  simp [hp, hcut, hc1, hc2]

theorem ParseInt_FormatInt (n : Int) (h1 : -2 ^ 63 ≤ n) (h2 : n < 2 ^ 63) :
    ParseInt (FormatInt n) = (n, none) := by
  unfold FormatInt
  by_cases hneg : n < 0
  · simp only [hneg, if_true]
    have hu : (2 ^ 64 - (n % 2 ^ 64).toNat) % 2 ^ 64 = (-n).toNat := by omega
    have hlt : (-n).toNat < 2 ^ 64 := by omega
    have hres : toInt (-toInt ((-n).toNat : Int)) = n := by
      unfold toInt
      omega
    rw [hu, ParseInt_signed _ (-n).toNat (by omega) (ParseUint_formatBits _ hlt), hres]
  · simp only [hneg, if_false]
    have hlt : (n % 2 ^ 64).toNat < 2 ^ 64 := by omega
    obtain ⟨c, rest, hr, hc1, hc2⟩ := formatBits_toList_head _ hlt
    have hp := ParseUint_formatBits _ hlt
    have hres : toInt ((n % 2 ^ 64).toNat : Int) = n := by
      unfold toInt
      omega
    rw [hr] at hp ⊢
    rw [ParseInt_unsigned c rest _ (by omega) hc1 hc2 hp, hres]

/-! ### Maps kept as entry lists -/

theorem mapSet_fresh {β : Type} (m : List (String × β)) (k : String) (v : β)
    (h : k ∉ m.map Prod.fst) : mapSet m k v = m ++ [(k, v)] := by
  induction m with
  | nil => rfl
  | cons e rest ih =>
    simp only [List.map_cons, List.mem_cons, not_or] at h
    have hne : ¬ e.1 = k := fun hc => h.1 hc.symm
    simp [mapSet, hne, ih h.2]

theorem foldl_mapSet_fresh {α β : Type} (f : α → String) (g : α → β) (es : List α)
    (init : List (String × β)) (h : (init.map Prod.fst ++ es.map f).Nodup) :
    es.foldl (fun m e => mapSet m (f e) (g e)) init = init ++ es.map (fun e => (f e, g e)) := by
  induction es generalizing init with
  | nil => simp
  | cons e rest ih =>
    have hfresh : f e ∉ init.map Prod.fst := by
      intro hc
      rw [List.nodup_append] at h
      exact h.2.2 hc (by simp)
    rw [List.foldl_cons, mapSet_fresh init (f e) (g e) hfresh, ih]
    · simp
    · simpa [List.append_assoc] using h

theorem mapGet_of_mem {β : Type} (r : List (String × β)) (k : String) (v : β)
    (hnd : (r.map Prod.fst).Nodup) (hm : (k, v) ∈ r) : mapGet r k = some v := by
  induction r with
  | nil => simp at hm
  | cons e rest ih =>
    simp only [List.map_cons, List.nodup_cons] at hnd
    rcases List.mem_cons.mp hm with he | he
    · subst he
      simp [mapGet]
    · have hne : ¬ e.1 = k := by
        intro hc
        apply hnd.1
        rw [hc]
        exact List.mem_map.mpr ⟨(k, v), he, rfl⟩
      simp [mapGet, hne, ih hnd.2 he]

theorem mapSet_keys {β : Type} (m : List (String × β)) (k : String) (v : β) :
    (mapSet m k v).map Prod.fst =
      if k ∈ m.map Prod.fst then m.map Prod.fst else m.map Prod.fst ++ [k] := by
  induction m with
  | nil => simp [mapSet]
  | cons e rest ih =>
    by_cases he : e.1 = k
    · simp [mapSet, he]
    · have hne : ¬ k = e.1 := fun hc => he hc.symm
      simp only [mapSet, he, if_false, List.map_cons, ih, List.mem_cons, hne, false_or]
      split <;> simp

theorem mapSet_mem {β : Type} (m : List (String × β)) (k : String) (v : β) (e : String × β)
    (h : e ∈ mapSet m k v) : e = (k, v) ∨ e ∈ m := by
  induction m with
  | nil =>
    simp only [mapSet, List.mem_singleton] at h
    exact Or.inl h
  | cons e0 rest ih =>
    by_cases he : e0.1 = k
    · simp only [mapSet, he, if_true, List.mem_cons] at h
      rcases h with h | h
      · exact Or.inl h
      · exact Or.inr (List.mem_cons_of_mem _ h)
    · simp only [mapSet, he, if_false, List.mem_cons] at h
      rcases h with h | h
      · exact Or.inr (by rw [h]; exact List.mem_cons_self _ _)
      · rcases ih h with h2 | h2
        · exact Or.inl h2
        · exact Or.inr (List.mem_cons_of_mem _ h2)

theorem foldl_mapSet_keys {α β : Type} (f : α → String) (g : α → β) (es : List α)
    (init : List (String × β)) (hnd : (init.map Prod.fst).Nodup) :
    ((es.foldl (fun m e => mapSet m (f e) (g e)) init).map Prod.fst).Nodup ∧
    (∀ k, k ∈ (es.foldl (fun m e => mapSet m (f e) (g e)) init).map Prod.fst ↔
      k ∈ init.map Prod.fst ∨ k ∈ es.map f) ∧
    (∀ e2 ∈ es.foldl (fun m e => mapSet m (f e) (g e)) init,
      e2 ∈ init ∨ ∃ e ∈ es, f e = e2.1 ∧ g e = e2.2) := by
  induction es generalizing init with
  | nil => simp [hnd]
  | cons e rest ih =>
    have hk := mapSet_keys init (f e) (g e)
    have hnd2 : ((mapSet init (f e) (g e)).map Prod.fst).Nodup := by
      rw [hk]
      split
      · exact hnd
      · rename_i hmem
        exact List.Nodup.append hnd (List.nodup_singleton _) (by simpa using hmem)
    obtain ⟨h1, h2, h3⟩ := ih (mapSet init (f e) (g e)) hnd2
    refine ⟨h1, ?_, ?_⟩
    · intro k
      rw [List.foldl_cons, h2 k, hk]
      split
      · rename_i hmem
        simp only [List.map_cons, List.mem_cons]
        constructor
        · rintro (h | h)
          · exact Or.inl h
          · exact Or.inr (Or.inr h)
        · rintro (h | h | h)
          · exact Or.inl h
          · exact Or.inl (h ▸ hmem)
          · exact Or.inr h
      · simp only [List.mem_append, List.mem_singleton, List.map_cons, List.mem_cons]
        tauto
    · intro e2 he2
      rw [List.foldl_cons] at he2
      rcases h3 e2 he2 with h | ⟨e1, he1, hf, hg⟩
      · rcases mapSet_mem init (f e) (g e) e2 h with h | h
        · exact Or.inr ⟨e, List.mem_cons_self _ _, by rw [h], by rw [h]⟩
        · exact Or.inl h
      · exact Or.inr ⟨e1, List.mem_cons_of_mem _ he1, hf, hg⟩

theorem length_of_nodup_same_members (ks rs : List String) (hnd : ks.Nodup)
    (hmem : ∀ k, k ∈ ks ↔ k ∈ rs) :
    ks.length ≤ rs.length ∧ (ks.length < rs.length ↔ ¬ rs.Nodup) := by
  have hfin : ks.toFinset = rs.toFinset := by
    ext k
    simp [hmem k]
  have hlen : ks.length = rs.toFinset.card := by
    rw [← hfin, List.toFinset_card_of_nodup hnd]
  have hle : rs.toFinset.card ≤ rs.length := List.toFinset_card_le rs
  refine ⟨by omega, ?_⟩
  constructor
  · intro hlt hr
    rw [hlen, List.toFinset_card_of_nodup hr] at hlt
    omega
  · intro hr
    by_contra hc
    apply hr
    have heq : rs.dedup.length = rs.length := by
      rw [← List.card_toFinset]
      omega
    have : rs.dedup = rs := (List.dedup_sublist rs).eq_of_length heq
    rw [← this]
    exact List.nodup_dedup rs

/-! ### The loop of `ToIntSliceE` -/

theorem intSliceLoop_some (L : Lib) (xs : List Value) (a : List Int) :
    intSliceLoop L xs = some a ↔
      (∀ x ∈ xs, (ToIntE L x).2 = none) ∧ a = xs.map (fun x => (ToIntE L x).1) := by
  induction xs generalizing a with
  | nil => simp [intSliceLoop, eq_comm]
  | cons x rest ih =>
    simp only [intSliceLoop]
    rcases hx : ToIntE L x with ⟨val, _ | e⟩
    · cases hr : intSliceLoop L rest with
      | none =>
        have := ih (rest.map (fun x => (ToIntE L x).1))
        simp only [hr, false_iff, not_and, not_true_eq_false, imp_false, reduceCtorEq] at this
        simp only [reduceCtorEq, false_iff, not_and]
        intro hall
        exact absurd (fun y hy => hall y (List.mem_cons_of_mem _ hy)) this
      | some b =>
        have hb := (ih b).mp hr
        simp only [Option.some.injEq, List.mem_cons, forall_eq_or_imp, hx, List.map_cons, true_and]
        constructor
        · intro h
          exact ⟨hb.1, by rw [← h, hb.2]⟩
        · intro h
          rw [h.2, hb.2]
    · simp [hx]

theorem intSliceLoop_none (L : Lib) (xs : List Value) :
    intSliceLoop L xs = none ↔ ∃ x ∈ xs, (ToIntE L x).2 ≠ none := by
  constructor
  · intro h
    by_contra hc
    push_neg at hc
    have := (intSliceLoop_some L xs _).mpr ⟨hc, rfl⟩
    rw [h] at this
    exact absurd this (by simp)
  · rintro ⟨x, hx, he⟩
    cases hr : intSliceLoop L xs with
    | none => rfl
    | some a => exact absurd (((intSliceLoop_some L xs a).mp hr).1 x hx) he

/-! ### `strings.Fields` against the maximal runs -/

theorem fieldsLoop_word (w s : List Char) (f : List Char) (acc : List String)
    (hw : ∀ c ∈ w, isSpace c = false) :
    fieldsLoop (w ++ s) (some f) acc = fieldsLoop s (some (w.reverse ++ f)) acc := by
  induction w generalizing f with
  | nil => rfl
  | cons c w ih =>
    have hc : isSpace c = false := hw c (by simp)
    have hrest : ∀ d ∈ w, isSpace d = false := fun d hd => hw d (List.mem_cons_of_mem _ hd)
    have step : fieldsLoop (c :: w ++ s) (some f) acc = fieldsLoop (w ++ s) (some (c :: f)) acc := by
      simp [fieldsLoop, hc]
    rw [step, ih (c :: f) hrest]
    simp

theorem fieldsLoop_word_start (w s : List Char) (acc : List String) (hne : w ≠ [])
    (hw : ∀ c ∈ w, isSpace c = false) :
    fieldsLoop (w ++ s) none acc = fieldsLoop s (some w.reverse) acc := by
  cases w with
  | nil => exact absurd rfl hne
  | cons c w =>
    have hc : isSpace c = false := hw c (by simp)
    have hrest : ∀ d ∈ w, isSpace d = false := fun d hd => hw d (List.mem_cons_of_mem _ hd)
    have step : fieldsLoop (c :: w ++ s) none acc = fieldsLoop (w ++ s) (some [c]) acc := by
      simp [fieldsLoop, hc]
    rw [step, fieldsLoop_word w s [c] acc hrest]
    simp

theorem fieldsLoop_cut (s f : List Char) (acc : List String)
    (hs : ∀ c ∈ s.head?, isSpace c = true) :
    fieldsLoop s (some f) acc = fieldsLoop s none (String.mk f.reverse :: acc) := by
  cases s with
  | nil => rfl
  | cons c s =>
    have hc : isSpace c = true := hs c (by simp)
    simp [fieldsLoop, hc]

theorem fieldsLoop_of_runs (s : List Char) (ws : List (List Char)) (h : MaximalRuns s ws) :
    ∀ acc : List String, fieldsLoop s none acc = acc.reverse ++ ws.map String.mk := by
  induction h with
  | nil => intro acc; simp [fieldsLoop]
  | space c s ws hc _ ih =>
    intro acc
    rw [← ih acc]
    simp [fieldsLoop, hc]
  | word w s ws hne hw hs _ ih =>
    intro acc
    rw [fieldsLoop_word_start w s acc hne hw, fieldsLoop_cut s _ acc hs, ih]
    simp

theorem MaximalRuns_head_word (d : Char) (t : List Char) (ws : List (List Char))
    (h : MaximalRuns (d :: t) ws) (hd : isSpace d = false) :
    ∃ w s2 ws2, w ≠ [] ∧ (∀ c ∈ w, isSpace c = false) ∧ (∀ c ∈ s2.head?, isSpace c = true) ∧
      MaximalRuns s2 ws2 ∧ d :: t = w ++ s2 ∧ ws = w :: ws2 := by
  generalize hx : d :: t = x at h
  cases h with
  | nil => exact absurd hx (by simp)
  | space c s ws hc _ =>
    injection hx with h1 h2
    rw [h1, hc] at hd
    exact absurd hd (by simp)
  | word w s2 ws2 hne hw hs hr => exact ⟨w, s2, ws2, hne, hw, hs, hr, rfl, rfl⟩

theorem MaximalRuns_exists (s : List Char) : ∃ ws, MaximalRuns s ws := by
  induction s with
  | nil => exact ⟨[], .nil⟩
  | cons c t ih =>
    obtain ⟨ws, hws⟩ := ih
    by_cases hc : isSpace c = true
    · exact ⟨ws, .space c t ws hc hws⟩
    · have hc2 : isSpace c = false := by simpa using hc
      cases t with
      | nil =>
        exact ⟨[[c]], MaximalRuns.word [c] [] [] (by simp) (by simpa using hc2) (by simp) .nil⟩
      | cons d t =>
        by_cases hd : isSpace d = true
        · exact ⟨[c] :: ws,
            MaximalRuns.word [c] (d :: t) ws (by simp) (by simpa using hc2) (by simpa using hd) hws⟩
        · have hd2 : isSpace d = false := by simpa using hd
          obtain ⟨w, s2, ws2, _, hw, hs, hr, heq, _⟩ := MaximalRuns_head_word d t ws hws hd2
          refine ⟨(c :: w) :: ws2, ?_⟩
          have := MaximalRuns.word (c :: w) s2 ws2 (by simp)
            (by
              intro x hx
              rcases List.mem_cons.mp hx with hx | hx
              · rw [hx]; exact hc2
              · exact hw x hx) hs hr
          rw [heq]
          exact this

theorem MaximalRuns_words (s : List Char) (ws : List (List Char)) (h : MaximalRuns s ws) :
    ∀ w ∈ ws, w ≠ [] ∧ ∀ c ∈ w, isSpace c = false := by
  induction h with
  | nil => simp
  | space c s ws _ _ ih => exact ih
  | word w s ws hne hw _ _ ih =>
    intro x hx
    rcases List.mem_cons.mp hx with hx | hx
    · rw [hx]; exact ⟨hne, hw⟩
    · exact ih x hx

theorem MaximalRuns_all_space (s : List Char) (h : ∀ c ∈ s, isSpace c = true) :
    MaximalRuns s [] := by
  induction s with
  | nil => exact .nil
  | cons c t ih =>
    exact .space c t [] (h c (by simp)) (ih (fun d hd => h d (List.mem_cons_of_mem _ hd)))

theorem map_toList_mk (ws : List (List Char)) :
    (ws.map String.mk).map String.toList = ws := by
  induction ws with
  | nil => rfl
  | cons w ws ih => simp [ih]

theorem Fields_of_runs (s : String) (ws : List (List Char)) (h : MaximalRuns s.toList ws) :
    Fields s = ws.map String.mk := by
  unfold Fields
  rw [fieldsLoop_of_runs s.toList ws h []]
  simp

/-! ### `parseDateWith` -/

theorem parseDateWith_ok (L : Lib) (s : String) (layouts : List String) (t : Time) :
    parseDateWith L s layouts = (t, none) ↔
      ∃ k l, layouts[k]? = some l ∧ L.timeParse l s = some t ∧
        ∀ (j : Nat) (l2 : String), j < k → layouts[j]? = some l2 → L.timeParse l2 s = none := by
  induction layouts with
  | nil => simp [parseDateWith]
  | cons l0 rest ih =>
    simp only [parseDateWith]
    cases h0 : L.timeParse l0 s with
    | some d =>
      simp only [Prod.mk.injEq, and_true]
      constructor
      · intro hd
        exact ⟨0, l0, by simp, by rw [h0, hd], by intro j l2 hj; omega⟩
      · rintro ⟨k, l, hk, hl, hbefore⟩
        cases k with
        | zero =>
          simp only [List.getElem?_cons_zero, Option.some.injEq] at hk
          rw [← hk, h0] at hl
          exact Option.some.inj hl
        | succ k =>
          have := hbefore 0 l0 (by omega) (by simp)
          rw [h0] at this
          exact absurd this (by simp)
    | none =>
      simp only []
      rw [ih]
      constructor
      · rintro ⟨k, l, hk, hl, hbefore⟩
        refine ⟨k + 1, l, by simpa using hk, hl, ?_⟩
        intro j l2 hj hj2
        cases j with
        | zero =>
          simp only [List.getElem?_cons_zero, Option.some.injEq] at hj2
          rw [← hj2]
          exact h0
        | succ j => exact hbefore j l2 (by omega) (by simpa using hj2)
      · rintro ⟨k, l, hk, hl, hbefore⟩
        cases k with
        | zero =>
          simp only [List.getElem?_cons_zero, Option.some.injEq] at hk
          rw [← hk, h0] at hl
          exact absurd hl (by simp)
        | succ k =>
          refine ⟨k, l, by simpa using hk, hl, ?_⟩
          intro j l2 hj hj2
          exact hbefore (j + 1) l2 (by omega) (by simpa using hj2)

theorem parseDateWith_err (L : Lib) (s : String) (layouts : List String) :
    (parseDateWith L s layouts).2 ≠ none ↔ ∀ l ∈ layouts, L.timeParse l s = none := by
  induction layouts with
  | nil => simp [parseDateWith]
  | cons l0 rest ih =>
    simp only [parseDateWith]
    cases h0 : L.timeParse l0 s with
    | some d => simp [h0]
    | none => simp [h0, ih]

/-! ### Indirection -/

theorem indirect_concrete (a : Value) (h : concreteChain a = true) :
    isNonNilPointer (indirect a) = false ∧ indirect (indirect a) = indirect a := by
  cases a with
  | ptr m v => exact indirect_concrete v h
  | ptrIface v => simp [concreteChain] at h
  | _ => exact ⟨rfl, rfl⟩

theorem indirect_of_not_pointer (a : Value) (h : isPointer a = false) : indirect a = a := by
  cases a <;> first | rfl | (simp [isPointer, isNonNilPointer] at h)

theorem indirect_pointerChain (ms : List Methods) (v : Value) :
    indirect (pointerChain ms v) = indirect v := by
  induction ms with
  | nil => rfl
  | cons m ms ih => exact ih

theorem indirectToStringerOrError_concrete (a : Value) (h : concreteChain a = true) :
    restsForString (indirectToStringerOrError a) = true := by
  cases a with
  | ptr m v =>
    by_cases hm : m.implements = true
    · simp [indirectToStringerOrError, hm, restsForString]
    · simp only [indirectToStringerOrError, hm]
      exact indirectToStringerOrError_concrete v h
  | ptrIface v => simp [concreteChain] at h
  | _ => rfl

theorem renderMethods_of_implements (m : Methods) (h : m.implements = true) :
    (renderMethods m).2 = none ∧
    (∀ t, m.stringer = some t → renderMethods m = (t, none)) ∧
    (∀ t, m.stringer = none → m.error = some t → renderMethods m = (t, none)) := by
  obtain ⟨st, er⟩ := m
  cases st <;> cases er <;> simp_all [Methods.implements, renderMethods]

theorem renderMethods_of_not_implements (m : Methods) (h : m.implements = false) :
    renderMethods m = ("", some (.unableToCast "string")) := by
  obtain ⟨st, er⟩ := m
  cases st <;> cases er <;> simp_all [Methods.implements, renderMethods]

theorem FormatInt_one : FormatInt (toInt 1) = "1" := by
  have h : toInt 1 = 1 := by decide
  rw [h]
  simp [FormatInt, formatBits, digitChar]

/-! ### The loop of `ToStringSliceE` -/

theorem foldl_goAppend {α β : Type} (f : α → β) (es : List α) (init : Option (List β)) :
    elems (es.foldl (fun a u => goAppend a (f u)) init) = elems init ++ es.map f := by
  induction es generalizing init with
  | nil => simp
  | cons e rest ih =>
    rw [List.foldl_cons, ih]
    simp [goAppend, elems]

/-! ### `strconv.ParseInt` against the literal grammar of the claim -/

theorem lower_ge (n : Nat) (h : 128 ≤ n) : 128 ≤ lower n := by
  by_contra hc
  have hlt : n ||| 32 < 2 ^ 7 := by
    unfold lower at hc
    omega
  have hn : n < 2 ^ 7 := by
    apply Nat.lt_pow_two_of_testBit
    intro i hi
    have hlt2 : n ||| 32 < 2 ^ i :=
      Nat.lt_of_lt_of_le hlt (Nat.pow_le_pow_right (by omega) hi)
    have := Nat.testBit_lt_two_pow hlt2
    rw [Nat.testBit_or] at this
    simp only [Bool.or_eq_false_iff] at this
    exact this.1
  omega

theorem lower_small : ∀ n < 128,
    (digitVal n = specDigit n) ∧ (lower n = 120 ↔ n = 120 ∨ n = 88) ∧
      (lower n = 98 ↔ n = 98 ∨ n = 66) ∧ (lower n = 111 ↔ n = 111 ∨ n = 79) := by
  decide

theorem digitVal_eq_specDigit (n : Nat) : digitVal n = specDigit n := by
  by_cases h : n < 128
  · exact (lower_small n h).1
  · have := lower_ge n (by omega)
    unfold digitVal specDigit
    rw [if_neg (by omega), if_neg (by omega), if_neg (by omega), if_neg (by omega), if_neg (by omega)]

theorem lower_eq_iff (n : Nat) :
    (lower n = 120 ↔ n = 120 ∨ n = 88) ∧ (lower n = 98 ↔ n = 98 ∨ n = 66) ∧
      (lower n = 111 ↔ n = 111 ∨ n = 79) := by
  by_cases h : n < 128
  · exact (lower_small n h).2
  · have := lower_ge n (by omega)
    omega

theorem char_eq_of_toNat (c d : Char) (h : c.toNat = d.toNat) : c = d := by
  apply Char.ext
  apply UInt32.ext
  exact h

theorem specDigit_le (n d : Nat) (h : specDigit n = some d) : d ≤ 35 := by
  unfold specDigit at h
  split at h
  · injection h with h; omega
  · split at h
    · injection h with h; omega
    · split at h
      · injection h with h; omega
      · exact absurd h (by simp)

theorem specValue_ge (b : Nat) (hb : 0 < b) (ds : List Char) (n v : Nat)
    (h : specValue b ds n = some v) : n ≤ v := by
  induction ds generalizing n with
  | nil =>
    simp only [specValue, Option.some.injEq] at h
    omega
  | cons c cs ih =>
    simp only [specValue] at h
    cases hd : specDigit c.toNat with
    | none => simp [hd] at h
    | some d =>
      simp only [hd] at h
      by_cases hlt : d < b
      · rw [if_pos hlt] at h
        have := ih _ h
        have hmul : n ≤ n * b := Nat.le_mul_of_pos_right n hb
        omega
      · rw [if_neg hlt] at h
        exact absurd h (by simp)

theorem parseDigits_spec (base : Nat) (hb : 0 < base) (ds : List Char)
    (hus : '_' ∉ ds) (n : Nat) (hn : n < 2 ^ 64) (us : Bool) :
    (∀ v, specValue base ds n = some v → v < 2 ^ 64 → parseDigits base ds n us = (v, none, us)) ∧
    ((∀ v, specValue base ds n = some v → 2 ^ 64 ≤ v) →
      (parseDigits base ds n us).2.1 = some .invalidLiteral ∨
      ((parseDigits base ds n us).1 = maxUint64 ∧
        (parseDigits base ds n us).2.1 = some .outOfRange)) := by
  induction ds generalizing n with
  | nil =>
    refine ⟨fun v h _ => ?_, fun h => ?_⟩
    · simp only [specValue, Option.some.injEq] at h
      rw [← h]
      rfl
    · have := h n rfl
      omega
  | cons c cs ih =>
    have hc : ¬ c = '_' := fun h => hus (h ▸ List.mem_cons_self _ _)
    have hcs : '_' ∉ cs := fun h => hus (List.mem_cons_of_mem _ h)
    rw [parseDigits, if_neg hc, digitVal_eq_specDigit]
    cases hd : specDigit c.toNat with
    | none =>
      refine ⟨fun v h _ => ?_, fun _ => Or.inl rfl⟩
      simp [specValue, hd] at h
    | some d =>
      have hd35 := specDigit_le _ _ hd
      have hsv : specValue base (c :: cs) n
          = if d < base then specValue base cs (n * base + d) else none := by
        simp only [specValue, hd]
      rw [hsv]
      dsimp only
      by_cases hlt : d < base
      · rw [if_pos hlt, if_neg (by omega : ¬ base ≤ d)]
        by_cases hcut : maxUint64 / base + 1 ≤ n
        · rw [if_pos hcut]
          have hbig : maxUint64 < n * base := (Nat.div_lt_iff_lt_mul hb).mp (by omega)
          refine ⟨fun v h hv => ?_, fun _ => Or.inr ⟨rfl, rfl⟩⟩
          have := specValue_ge base hb cs _ v h
          unfold maxUint64 at hbig
          omega
        · rw [if_neg hcut]
          have hsmall : n * base ≤ maxUint64 := (Nat.le_div_iff_mul_le hb).mp (by omega)
          unfold maxUint64 at hsmall
          generalize hp : n * base = p at hsmall ⊢
          by_cases hov : (p + d) % 2 ^ 64 < p ∨ maxUint64 < (p + d) % 2 ^ 64
          · rw [if_pos hov]
            refine ⟨fun v h hv => ?_, fun _ => Or.inr ⟨rfl, rfl⟩⟩
            have := specValue_ge base hb cs _ v h
            unfold maxUint64 at hov
            omega
          · rw [if_neg hov]
            have hfit : p + d < 2 ^ 64 := by
              unfold maxUint64 at hov
              omega
            have hmod : (p + d) % 2 ^ 64 = p + d := Nat.mod_eq_of_lt hfit
            rw [hmod]
            exact ih hcs (p + d) hfit
      · rw [if_neg hlt, if_pos (by omega : base ≤ d)]
        exact ⟨fun v h => absurd h (by simp), fun _ => Or.inl rfl⟩

theorem uintResult_spec (body ds : List Char) (b : Nat) (hb : 0 < b) (hus : '_' ∉ ds) :
    (∀ m, specValue b ds 0 = some m → m < 2 ^ 64 →
      uintResult body (parseDigits b ds 0 false) = (m, none)) ∧
    ((∀ m, specValue b ds 0 = some m → 2 ^ 64 ≤ m) →
      (uintResult body (parseDigits b ds 0 false)).2 = some .invalidLiteral ∨
      ((uintResult body (parseDigits b ds 0 false)).1 = maxUint64 ∧
        (uintResult body (parseDigits b ds 0 false)).2 = some .outOfRange)) := by
  obtain ⟨h1, h2⟩ := parseDigits_spec b hb ds hus 0 (by omega) false
  refine ⟨fun m hm hlt => ?_, fun hbig => ?_⟩
  · rw [h1 m hm hlt]
    simp [uintResult]
  · have hf := h2 hbig
    generalize parseDigits b ds 0 false = r at hf
    obtain ⟨n, e, us⟩ := r
    rcases hf with hf | ⟨hf1, hf2⟩
    · simp only at hf
      subst hf
      exact Or.inl rfl
    · simp only at hf1 hf2
      subst hf1 hf2
      exact Or.inr ⟨rfl, rfl⟩

theorem specValue_leading_zero (ds : List Char) :
    specValue 8 ('0' :: ds) 0 = specValue 8 ds 0 := by
  have h : specDigit 48 = some 0 := by decide
  simp [specValue, h]

theorem lower_char_iff (c : Char) :
    (lower c.toNat = 120 ↔ c = 'x' ∨ c = 'X') ∧ (lower c.toNat = 98 ↔ c = 'b' ∨ c = 'B') ∧
      (lower c.toNat = 111 ↔ c = 'o' ∨ c = 'O') := by
  obtain ⟨h1, h2, h3⟩ := lower_eq_iff c.toNat
  refine ⟨h1.trans ?_, h2.trans ?_, h3.trans ?_⟩ <;>
    · constructor
      · rintro (h | h)
        · exact Or.inl (char_eq_of_toNat _ _ h)
        · exact Or.inr (char_eq_of_toNat _ _ h)
      · rintro (h | h) <;> subst h
        · exact Or.inl rfl
        · exact Or.inr rfl

theorem ParseUint_spec (body : List Char) (hus : '_' ∉ body)
    (hext : ∀ c1 r, body = '0' :: c1 :: r → ¬ (c1 = 'b' ∨ c1 = 'B' ∨ c1 = 'o' ∨ c1 = 'O')) :
    (∀ m, specMagnitude body = some m → m < 2 ^ 64 → ParseUint body = (m, none)) ∧
    ((∀ m, specMagnitude body = some m → 2 ^ 64 ≤ m) →
      (ParseUint body).2 = some .invalidLiteral ∨
      ((ParseUint body).1 = maxUint64 ∧ (ParseUint body).2 = some .outOfRange)) := by
  cases body with
  | nil => exact ⟨fun m h => absurd h (by simp [specMagnitude]), fun _ => Or.inl rfl⟩
  | cons c0 rest =>
    by_cases h0 : c0 = '0'
    · subst h0
      cases rest with
      | nil =>
        refine ⟨fun m h _ => ?_, fun h => ?_⟩
        · have hs : specMagnitude ['0'] = some 0 := by decide
          rw [hs] at h
          injection h with h
          rw [← h]
          decide
        · have := h 0 (by decide)
          omega
      | cons c1 ds =>
        have hc1 := hext c1 ds rfl
        obtain ⟨hx, hbb, ho⟩ := lower_char_iff c1
        have hnb : ¬ lower c1.toNat = 98 := fun h => hc1 (by rcases hbb.mp h with h | h <;> simp [h])
        have hno : ¬ lower c1.toNat = 111 := fun h => hc1 (by rcases ho.mp h with h | h <;> simp [h])
        cases ds with
        | nil =>
          have hP : ParseUint ['0', c1] = uintResult ['0', c1] (parseDigits 8 [c1] 0 false) := rfl
          rw [hP]
          by_cases hxx : c1 = 'x' ∨ c1 = 'X'
          · have hs : specMagnitude ['0', c1] = none := by
              simp [specMagnitude, hxx, specNumeral]
            rw [hs]
            refine ⟨fun m h => absurd h (by simp), fun _ => ?_⟩
            rcases hxx with h | h <;> subst h <;> exact Or.inl (by decide)
          · have hs : specMagnitude ['0', c1] = specValue 8 [c1] 0 := by
              simp only [specMagnitude, if_true, hxx, if_false, specNumeral]
              exact specValue_leading_zero [c1]
            rw [hs]
            exact uintResult_spec _ [c1] 8 (by omega) (fun h => hus (List.mem_cons_of_mem _ h))
        | cons c2 r =>
          by_cases hxx : c1 = 'x' ∨ c1 = 'X'
          · have hl : lower c1.toNat = 120 := hx.mpr hxx
            have hP : ParseUint ('0' :: c1 :: c2 :: r)
                = uintResult ('0' :: c1 :: c2 :: r) (parseDigits 16 (c2 :: r) 0 false) := by
              simp only [ParseUint, if_true, hnb, hno, hl, if_false]
              rfl
            have hs : specMagnitude ('0' :: c1 :: c2 :: r) = specValue 16 (c2 :: r) 0 := by
              simp only [specMagnitude, if_true, hxx, specNumeral]
            rw [hP, hs]
            exact uintResult_spec _ (c2 :: r) 16 (by omega)
              (fun h => hus (List.mem_cons_of_mem _ (List.mem_cons_of_mem _ h)))
          · have hl : ¬ lower c1.toNat = 120 := fun h => hxx (hx.mp h)
            have hP : ParseUint ('0' :: c1 :: c2 :: r)
                = uintResult ('0' :: c1 :: c2 :: r) (parseDigits 8 (c1 :: c2 :: r) 0 false) := by
              simp only [ParseUint, if_true, hnb, hno, hl, if_false]
              rfl
            have hs : specMagnitude ('0' :: c1 :: c2 :: r) = specValue 8 (c1 :: c2 :: r) 0 := by
              simp only [specMagnitude, if_true, hxx, if_false, specNumeral]
              exact specValue_leading_zero _
            rw [hP, hs]
            exact uintResult_spec _ (c1 :: c2 :: r) 8 (by omega)
              (fun h => hus (List.mem_cons_of_mem _ h))
    · have hP : ParseUint (c0 :: rest)
          = uintResult (c0 :: rest) (parseDigits 10 (c0 :: rest) 0 false) := by
        simp only [ParseUint, h0, if_false]
        rfl
      have hs : specMagnitude (c0 :: rest) = specValue 10 (c0 :: rest) 0 := by
        simp only [specMagnitude, h0, if_false, specNumeral]
      rw [hP, hs]
      exact uintResult_spec _ (c0 :: rest) 10 (by omega) hus

theorem ParseInt_eq_intResult (c : Char) (rest : List Char) :
    ParseInt (String.mk (c :: rest))
      = intResult (decide (c = '-')) (ParseUint (unsignedPart (c :: rest))) := rfl

theorem intResult_fails (neg : Bool) (r : Nat × Option Err)
    (h : r.2 = some .invalidLiteral ∨ (r.1 = maxUint64 ∧ r.2 = some .outOfRange)) :
    (intResult neg r).2 ≠ none := by
  obtain ⟨un, e⟩ := r
  rcases h with h | ⟨h1, h2⟩
  · simp only at h
    subst h
    simp [intResult]
  · simp only at h1 h2
    subst h1 h2
    cases neg <;> simp [intResult, maxUint64]

theorem intResult_ok (neg : Bool) (m : Nat) :
    intResult neg (m, none) =
      (if neg = false ∧ 2 ^ 63 ≤ m then (((2 ^ 63 : Nat) : Int) - 1, some Err.outOfRange)
      else if neg = true ∧ 2 ^ 63 < m then (-((2 ^ 63 : Nat) : Int), some Err.outOfRange)
      else (if neg = true then toInt (-toInt (m : Int)) else toInt (m : Int), none)) := rfl

theorem specParseInt_cons (c : Char) (rest : List Char) :
    specParseInt (String.mk (c :: rest)) =
      match specMagnitude (unsignedPart (c :: rest)) with
      | none => none
      | some m =>
        if -2 ^ 63 ≤ (if c = '-' then -(m : Int) else (m : Int)) ∧
            (if c = '-' then -(m : Int) else (m : Int)) < 2 ^ 63 then
          some (if c = '-' then -(m : Int) else (m : Int))
        else none := by
  simp only [specParseInt, String.toList, List.head?_cons, Option.some.injEq]

theorem ParseInt_spec (s : String) (h : extendedForm s = false) :
    (∀ v, specParseInt s = some v → ParseInt s = (v, none) ∧ -2 ^ 63 ≤ v ∧ v < 2 ^ 63) ∧
    (specParseInt s = none → (ParseInt s).2 ≠ none) := by
  obtain ⟨cs⟩ := s
  cases cs with
  | nil =>
    have hs : specParseInt (String.mk []) = none := by decide
    have hp : ParseInt (String.mk []) = (0, some .invalidLiteral) := by decide
    rw [hs, hp]
    exact ⟨fun v hv => absurd hv (by simp), fun _ => by simp⟩
  | cons c rest =>
    have hsub : ∀ x ∈ unsignedPart (c :: rest), x ∈ c :: rest := by
      intro x hx
      simp only [unsignedPart] at hx
      split at hx
      · exact List.mem_cons_of_mem _ hx
      · exact hx
    simp only [extendedForm, Bool.or_eq_false_iff, String.toList] at h
    obtain ⟨h1, h2⟩ := h
    have hus : '_' ∉ unsignedPart (c :: rest) := by
      intro hc
      have hmem := hsub _ hc
      have hc2 : (c :: rest).contains '_' = true := by simpa using hmem
      rw [hc2] at h1
      exact absurd h1 (by simp)
    have hext : ∀ c1 r, unsignedPart (c :: rest) = '0' :: c1 :: r →
        ¬ (c1 = 'b' ∨ c1 = 'B' ∨ c1 = 'o' ∨ c1 = 'O') := by
      intro c1 r hb hc
      rw [hb] at h2
      rcases hc with hc | hc | hc | hc <;> subst hc <;> simp at h2
    obtain ⟨hA, hB⟩ := ParseUint_spec _ hus hext
    rw [ParseInt_eq_intResult, specParseInt_cons]
    cases hm : specMagnitude (unsignedPart (c :: rest)) with
    | none =>
      refine ⟨fun v hv => absurd hv (by simp), fun _ => ?_⟩
      exact intResult_fails _ _ (hB (fun m hm2 => absurd hm2 (by rw [hm]; simp)))
    | some m =>
      dsimp only
      by_cases hlt : m < 2 ^ 64
      · rw [hA m hm hlt, intResult_ok]
        by_cases hneg : c = '-'
        · simp only [hneg, if_true, decide_True, true_and, Bool.true_eq_false, false_and, if_false]
          by_cases hr : 2 ^ 63 < m
          · rw [if_pos hr, if_neg (by omega)]
            exact ⟨fun v hv => absurd hv (by simp), fun _ => by simp⟩
          · rw [if_neg hr, if_pos (by omega)]
            refine ⟨fun v hv => ?_, fun hv => absurd hv (by simp)⟩
            injection hv with hv
            subst hv
            refine ⟨?_, by omega, by omega⟩
            have : toInt (-toInt (m : Int)) = -(m : Int) := by
              unfold toInt
              omega
            rw [this]
        · simp only [hneg, if_false, decide_False, true_and, Bool.false_eq_true, false_and]
          by_cases hr : 2 ^ 63 ≤ m
          · rw [if_pos hr, if_neg (by omega)]
            exact ⟨fun v hv => absurd hv (by simp), fun _ => by simp⟩
          · rw [if_neg hr, if_pos (by omega)]
            refine ⟨fun v hv => ?_, fun hv => absurd hv (by simp)⟩
            injection hv with hv
            subst hv
            refine ⟨?_, by omega, by omega⟩
            have : toInt (m : Int) = (m : Int) := by
              unfold toInt
              omega
            rw [this]
      · have hfail := intResult_fails (decide (c = '-')) _
          (hB (fun m2 hm2 => by rw [hm] at hm2; injection hm2 with hm2; omega))
        refine ⟨fun v hv => ?_, fun _ => hfail⟩
        exfalso
        by_cases hneg : c = '-'
        · simp only [hneg, if_true] at hv
          rw [if_neg (by omega)] at hv
          exact absurd hv (by simp)
        · simp only [hneg, if_false] at hv
          rw [if_neg (by omega)] at hv
          exact absurd hv (by simp)

/-! ### Loops whose body calls `ToString` -/

theorem ToString_panics_iff (L : Lib) (v : Value) :
    ToString L v = .panics ↔ indirectToStringerOrError v = .ptrNilValueMethod := by
  unfold ToString ToStringE
  generalize indirectToStringerOrError v = w
  cases w <;> simp [Outcome.map]

theorem ToString_eq_getD (L : Lib) (v : Value) (h : ToString L v ≠ .panics) :
    ToString L v = .returns ((ToString L v).getD "") :=
  Outcome.eq_returns_getD _ _ h

theorem map_ToString_eq (L : Lib) {α : Type} (key : α → Value) (es : List α)
    (h : ∀ e ∈ es, ToString L (key e) ≠ .panics) :
    es.map (fun e => ToString L (key e))
      = (es.map (fun e => (ToString L (key e)).getD "")).map Outcome.returns := by
  rw [List.map_map]
  apply List.map_congr_left
  intro e he
  exact ToString_eq_getD L _ (h e he)

theorem stringMapLoop_returns (L : Lib) (es : List (Value × Value))
    (h : ∀ e ∈ es, ToString L e.1 ≠ .panics ∧ ToString L e.2 ≠ .panics)
    (init : List (String × String)) :
    rangeLoop (fun m e =>
        (ToString L e.1).bind fun k => (ToString L e.2).map fun val => mapSet m k val) es init
      = .returns (es.foldl
          (fun m e => mapSet m ((ToString L e.1).getD "") ((ToString L e.2).getD "")) init) := by
  apply rangeLoop_returns
  intro e he t
  obtain ⟨h1, h2⟩ := h e he
  cases hk : ToString L e.1 with
  | panics => exact absurd hk h1
  | returns k =>
    cases hv : ToString L e.2 with
    | panics => exact absurd hv h2
    | returns v => rfl

theorem anyMapLoop_returns (L : Lib) (es : List (Value × Value))
    (h : ∀ e ∈ es, ToString L e.1 ≠ .panics) (init : List (String × Value)) :
    rangeLoop (fun m e => (ToString L e.1).map fun k => mapSet m k e.2) es init
      = .returns (es.foldl (fun m e => mapSet m ((ToString L e.1).getD "") e.2) init) := by
  apply rangeLoop_returns
  intro e he t
  cases hk : ToString L e.1 with
  | panics => exact absurd hk (h e he)
  | returns k => rfl

theorem stringSliceLoop_returns (L : Lib) (es : List Value)
    (h : ∀ x ∈ es, ToString L x ≠ .panics) (init : Option (List String)) :
    rangeLoop (fun a u => (ToString L u).map fun t => goAppend a t) es init
      = .returns (es.foldl (fun a u => goAppend a ((ToString L u).getD "")) init) := by
  apply rangeLoop_returns
  intro x hx t
  cases hk : ToString L x with
  | panics => exact absurd hk (h x hx)
  | returns k => rfl

/-! ## The claims -/

/-- C1: each scalar convenience function (`ToBool`, `ToInt`, `ToString`,
`ToFloat64`, `ToDuration`, `ToTime`) returns the value component of its
fallible counterpart, and whenever the counterpart returns an error that value
is the zero value of the target type: false, 0, the empty string, 0.0, the
zero duration, the zero time.  (Where `ToStringE` panics, `ToString` panics
with it.) -/
theorem C1_wrappers_return_value_or_zero (L : Lib) (i : Value) :
    (ToBool i = (ToBoolE i).1 ∧ ((ToBoolE i).2 ≠ none → ToBool i = false)) ∧
    (ToInt L i = (ToIntE L i).1 ∧ ((ToIntE L i).2 ≠ none → ToInt L i = 0)) ∧
    (ToString L i = (ToStringE L i).map Prod.fst ∧
      (∀ s e, ToStringE L i = .returns (s, e) → ToString L i = .returns s) ∧
      (∀ s e, ToStringE L i = .returns (s, some e) → ToString L i = .returns "") ∧
      (ToStringE L i = .panics → ToString L i = .panics)) ∧
    (ToFloat64 L i = (ToFloat64E L i).1 ∧
      ((ToFloat64E L i).2 ≠ none → ToFloat64 L i = Float64.zero)) ∧
    (ToDuration L i = (ToDurationE L i).1 ∧
      ((ToDurationE L i).2 ≠ none → ToDuration L i = Duration.zero)) ∧
    (ToTime L i = (ToTimeE L i).1 ∧ ((ToTimeE L i).2 ≠ none → ToTime L i = Time.zero)) := by
  refine ⟨⟨rfl, ToBoolE_err_false i⟩, ⟨rfl, ToIntE_err_zero L i⟩, ⟨rfl, ?_, ?_, ?_⟩,
    ⟨rfl, ToFloat64E_err_zero L i⟩, ⟨rfl, ToDurationE_err_zero L i⟩, ⟨rfl, ToTimeE_err_zero L i⟩⟩
  · intro s e h
    exact ToString_of_ToStringE L i s e h
  · intro s e h
    rw [ToString_of_ToStringE L i s (some e) h, ToStringE_err_empty L i s e h]
  · intro h
    unfold ToString
    rw [h]
    rfl

/-- C2: on a string `s`, `ToBoolE` returns true without error exactly for
"1", "t", "T", "TRUE", "true", "True", false without error exactly for
"0", "f", "F", "FALSE", "false", "False", and an error for every other string. -/
theorem C2_ToBoolE_string (s : String) :
    (ToBoolE (.string s) = (true, none) ↔ s ∈ ["1", "t", "T", "TRUE", "true", "True"]) ∧
    (ToBoolE (.string s) = (false, none) ↔ s ∈ ["0", "f", "F", "FALSE", "false", "False"]) ∧
    ((ToBoolE (.string s)).2 ≠ none ↔
      s ∉ ["1", "t", "T", "TRUE", "true", "True", "0", "f", "F", "FALSE", "false", "False"]) := by
  have h : ToBoolE (.string s) = ParseBool s := rfl
  rw [h]
  unfold ParseBool
  split <;> simp_all

/-- C3: for a signed integer `n` of any native width (`int`, `int8`, `int16`,
`int32`, `int64`; `int` is 64 bits wide), `ToIntE` returns `n` itself with no
error. -/
theorem C3_ToIntE_signed_widths (L : Lib) (n : Int) :
    (-2 ^ 63 ≤ n ∧ n < 2 ^ 63 → ToIntE L (.int n) = (n, none)) ∧
    (-2 ^ 7 ≤ n ∧ n < 2 ^ 7 → ToIntE L (.int8 n) = (n, none)) ∧
    (-2 ^ 15 ≤ n ∧ n < 2 ^ 15 → ToIntE L (.int16 n) = (n, none)) ∧
    (-2 ^ 31 ≤ n ∧ n < 2 ^ 31 → ToIntE L (.int32 n) = (n, none)) ∧
    (-2 ^ 63 ≤ n ∧ n < 2 ^ 63 → ToIntE L (.int64 n) = (n, none)) := by
  refine ⟨fun _ => rfl, fun h => ?_, fun h => ?_, fun h => ?_, fun h => ?_⟩ <;>
    · show (toInt n, none) = (n, none)
      rw [toInt_of_range n (by omega) (by omega)]

/-- C3 at the extreme values of each width. -/
theorem C3_ToIntE_signed_widths_witness :
    ToIntE demoLib (.int (-9223372036854775808)) = (-9223372036854775808, none) ∧
    ToIntE demoLib (.int8 (-128)) = (-128, none) ∧
    ToIntE demoLib (.int16 32767) = (32767, none) ∧
    ToIntE demoLib (.int32 (-2147483648)) = (-2147483648, none) ∧
    ToIntE demoLib (.int64 9223372036854775807) = (9223372036854775807, none) :=
  ⟨(C3_ToIntE_signed_widths demoLib _).1 (by decide),
   (C3_ToIntE_signed_widths demoLib _).2.1 (by decide),
   (C3_ToIntE_signed_widths demoLib _).2.2.1 (by decide),
   (C3_ToIntE_signed_widths demoLib _).2.2.2.1 (by decide),
   (C3_ToIntE_signed_widths demoLib _).2.2.2.2 (by decide)⟩

/-- C4: for a native `int` `n` (positive, zero or negative) the decimal text
`ToStringE` produces is parsed back by `ToIntE` to `n` itself, without error,
and so `ToString(ToInt(ToString(n))) = ToString(n)`. -/
theorem C4_string_int_round_trip (L : Lib) (n : Int) (h1 : -2 ^ 63 ≤ n) (h2 : n < 2 ^ 63) :
    ToStringE L (.int n) = .returns (FormatInt n, none) ∧
    ToString L (.int n) = .returns (FormatInt n) ∧
    (∀ t, ToString L (.int n) = .returns t →
      ToIntE L (.string t) = (n, none) ∧
      ToString L (.int (ToInt L (.string t))) = ToString L (.int n)) := by
  have hs : ToStringE L (.int n) = .returns (FormatInt n, none) := by
    show Outcome.returns (FormatInt (toInt n), none) = .returns (FormatInt n, none)
    rw [toInt_of_range n h1 h2]
  have hst : ToString L (.int n) = .returns (FormatInt n) :=
    ToString_of_ToStringE L _ _ _ hs
  have hi : ToIntE L (.string (FormatInt n)) = (n, none) := by
    show (match ParseInt (FormatInt n) with
      | (v, none) => (toInt v, none)
      | (_, some _) => (0, some (Err.unableToCast "int"))) = (n, none)
    rw [ParseInt_FormatInt n h1 h2]
    show (toInt n, none) = (n, none)
    rw [toInt_of_range n h1 h2]
  refine ⟨hs, hst, fun t ht => ?_⟩
  rw [hst] at ht
  have ht2 : FormatInt n = t := Outcome.returns.inj ht
  subst ht2
  refine ⟨hi, ?_⟩
  unfold ToInt
  rw [hi]

/-- C4 at the smallest `int`. -/
theorem C4_string_int_round_trip_witness :
    ToStringE demoLib (.int (-9223372036854775808))
      = .returns (FormatInt (-9223372036854775808), none) ∧
    ToString demoLib (.int (-9223372036854775808)) = .returns (FormatInt (-9223372036854775808)) ∧
    (∀ t, ToString demoLib (.int (-9223372036854775808)) = .returns t →
      ToIntE demoLib (.string t) = (-9223372036854775808, none) ∧
      ToString demoLib (.int (ToInt demoLib (.string t)))
        = ToString demoLib (.int (-9223372036854775808))) :=
  C4_string_int_round_trip demoLib (-9223372036854775808) (by decide) (by decide)

/-- C5, a defect of the code: on the map `{"a": (*time.Time)(nil)}`, whose
value is a nil pointer of a type with a value-receiver `String()`,
`ToStringMapStringE` panics inside `ToString` and returns neither a map nor an
error.  On every map whose keys and values `ToString` can render without a
panic the claim holds: with pairwise distinct key renderings the call succeeds
and the result has exactly as many entries as the input, each input entry
`(k, v)` appearing as `ToString(k) -> ToString(v)` and nothing else; the map
`{1: "x", "2": "y"}` yields `{"1": "x", "2": "y"}`. -/
theorem C5_ToStringMapStringE_panics_on_nil_value_receiver (L : Lib) :
    ToStringMapStringE L (.mapAny (some [(.string "a", .ptrNilValueMethod)])) = .panics ∧
    (∀ m : Option (List (Value × Value)),
      (∀ e ∈ elems m, ToString L e.1 ≠ .panics ∧ ToString L e.2 ≠ .panics) →
      ((elems m).map (fun e => ToString L e.1)).Nodup →
      ∃ r, ToStringMapStringE L (.mapAny m) = .returns (some r, none) ∧
        r.length = (elems m).length ∧
        (∀ e ∈ elems m, ∀ k v, ToString L e.1 = .returns k → ToString L e.2 = .returns v →
          mapGet r k = some v) ∧
        r.map (fun kv => (Outcome.returns kv.1, Outcome.returns kv.2))
          = (elems m).map (fun e => (ToString L e.1, ToString L e.2))) ∧
    ToStringMapStringE L (.mapAny (some [(.int 1, .string "x"), (.string "2", .string "y")]))
      = .returns (some [("1", "x"), ("2", "y")], none) := by
  refine ⟨rfl, fun m hp hnd => ?_, ?_⟩
  · have hkeys := map_ToString_eq L (fun e : Value × Value => e.1) (elems m) (fun e he => (hp e he).1)
    have hnd2 : ((elems m).map (fun e => (ToString L e.1).getD "")).Nodup := by
      rw [hkeys] at hnd
      exact List.Nodup.of_map _ hnd
    have hr := foldl_mapSet_fresh (fun e : Value × Value => (ToString L e.1).getD "")
      (fun e => (ToString L e.2).getD "") (elems m) [] (by simpa using hnd2)
    simp only [List.nil_append] at hr
    refine ⟨(elems m).map (fun e => ((ToString L e.1).getD "", (ToString L e.2).getD "")),
      ?_, ?_, ?_, ?_⟩
    · show Outcome.map _ (rangeLoop _ (elems m) []) = _
      rw [stringMapLoop_returns L (elems m) hp [], hr]
      rfl
    · simp
    · intro e he k v hk hv
      apply mapGet_of_mem
      · simpa [List.map_map, Function.comp_def] using hnd2
      · refine List.mem_map.mpr ⟨e, he, ?_⟩
        rw [hk, hv]
        rfl
    · rw [List.map_map]
      apply List.map_congr_left
      intro e he
      show (Outcome.returns ((ToString L e.1).getD ""), Outcome.returns ((ToString L e.2).getD ""))
        = (ToString L e.1, ToString L e.2)
      rw [← ToString_eq_getD L e.1 (hp e he).1, ← ToString_eq_getD L e.2 (hp e he).2]
  · have hk1 : ToString L (.int 1) = .returns "1" := by
      show Outcome.returns (FormatInt (toInt 1)) = _
      rw [FormatInt_one]
    have hk2 : ToString L (.string "2") = .returns "2" := rfl
    have hv1 : ToString L (.string "x") = .returns "x" := rfl
    have hv2 : ToString L (.string "y") = .returns "y" := rfl
    simp [ToStringMapStringE, elems, rangeLoop, hk1, hk2, hv1, hv2, Outcome.bind, Outcome.map,
      mapSet]

/-- C6: for an input whose kind is slice or array, with elements `xs`,
`ToIntSliceE` succeeds exactly when `ToIntE` succeeds on every element; on
success the result has the length of `xs` and its `j`-th element is
`ToIntE(xs[j])`; if some element fails to coerce the call returns an error. -/
theorem C6_ToIntSliceE_elementwise (L : Lib) (i : Value) (xs : List Value)
    (h : reflectElems i = some xs) :
    ((ToIntSliceE L i).2 = none ↔ ∀ x ∈ xs, (ToIntE L x).2 = none) ∧
    ((ToIntSliceE L i).2 = none →
      (elems (ToIntSliceE L i).1).length = xs.length ∧
      elems (ToIntSliceE L i).1 = xs.map (fun x => (ToIntE L x).1)) ∧
    ((∃ x ∈ xs, (ToIntE L x).2 ≠ none) → (ToIntSliceE L i).2 ≠ none) := by
  have key : ((ToIntSliceE L i).2 = none ↔ ∀ x ∈ xs, (ToIntE L x).2 = none) ∧
      ((ToIntSliceE L i).2 = none →
        elems (ToIntSliceE L i).1 = xs.map (fun x => (ToIntE L x).1)) := by
    have loop : ∀ j : Value, reflectElems j = some xs →
        (match intSliceLoop L xs with
          | some a => ((some a, none) : Option (List Int) × Option Err)
          | none => (some [], some (.unableToCast "[]int"))) = ToIntSliceE L j ∨
        (∃ v, j = .sliceInt v) := by
      intro j hj
      cases j <;> simp_all [ToIntSliceE, reflectElems]
    rcases loop i h with hl | ⟨v, rfl⟩
    · rw [← hl]
      cases hr : intSliceLoop L xs with
      | none =>
        obtain ⟨x, hx, he⟩ := (intSliceLoop_none L xs).mp hr
        simp only [reduceCtorEq, false_iff, not_forall, false_imp_iff, and_true]
        exact ⟨x, hx, he⟩
      | some a =>
        have ha := (intSliceLoop_some L xs a).mp hr
        exact ⟨⟨fun _ => ha.1, fun _ => rfl⟩, fun _ => ha.2⟩
    · simp only [reflectElems, Option.some.injEq] at h
      subst h
      have hall : ∀ x ∈ (elems v).map Value.int, (ToIntE L x).2 = none := by
        intro x hx
        obtain ⟨n, -, rfl⟩ := List.mem_map.mp hx
        rfl
      refine ⟨⟨fun _ => hall, fun _ => rfl⟩, fun _ => ?_⟩
      show elems v = _
      rw [List.map_map]
      exact (List.map_id _).symm
  refine ⟨key.1, fun hn => ⟨?_, key.2 hn⟩, fun hex hn => ?_⟩
  · rw [key.2 hn, List.length_map]
  · obtain ⟨x, hx, he⟩ := hex
    exact he (key.1.mp hn x hx)

/-- C6 on a `[]interface{}` of three convertible elements and on one with a rejected element. -/
theorem C6_ToIntSliceE_elementwise_witness :
    (((ToIntSliceE demoLib (.sliceAny (some [.int 3, .string "0x10", .bool true]))).2 = none ↔
        ∀ x ∈ [Value.int 3, .string "0x10", .bool true], (ToIntE demoLib x).2 = none) ∧
      ToIntSliceE demoLib (.sliceAny (some [.int 3, .string "0x10", .bool true]))
        = (some [3, 16, 1], none)) ∧
    (ToIntSliceE demoLib (.seq Methods.none [.int8 3, .string "x"])).2 ≠ none :=
  ⟨⟨(C6_ToIntSliceE_elementwise demoLib (.sliceAny (some [.int 3, .string "0x10", .bool true]))
      [.int 3, .string "0x10", .bool true] rfl).1, by decide⟩,
    (C6_ToIntSliceE_elementwise demoLib (.seq Methods.none [.int8 3, .string "x"]) _ rfl).2.2
      ⟨.string "x", by simp, by decide⟩⟩

/-- C7, as stated, fails: on a plain integer `ToSliceE` and `ToStringSliceE`
return an error together with the `nil` slice, not an empty non-nil slice. -/
theorem C7_failure_shape_counterexample :
    (ToSliceE (.int 1) = (none, some (.unableToCast "[]interface\x7b\x7d")) ∧
      (ToSliceE (.int 1)).1 ≠ some []) ∧
    (ToStringSliceE demoLib (.int 1) = .returns (none, some (.unableToCast "[]string")) ∧
      ToStringSliceE demoLib (.int 1) ≠ .returns (some [], some (.unableToCast "[]string"))) :=
  ⟨⟨rfl, fun h => Option.noConfusion h⟩, ⟨rfl, by decide⟩⟩

/-- C7, amended: whenever a fallible collection function returns an error, the
collection returned with it has no entries (it is never partially filled); it
is the empty, non-nil collection for `ToStringMapStringE`, `ToStringMapBoolE`,
`ToStringMapE` and `ToIntSliceE`, and the `nil` slice for `ToSliceE` and
`ToStringSliceE`.  In particular `ToIntSliceE` on `nil` or on a plain integer
fails and returns an empty sequence. -/
theorem C7_failure_shape (L : Lib) (i : Value) :
    (∀ r e, ToStringMapStringE L i = .returns (r, some e) → r = some []) ∧
    (∀ r e, ToStringMapBoolE L i = .returns (r, some e) → r = some []) ∧
    (∀ r e, ToStringMapE L i = .returns (r, some e) → r = some []) ∧
    ((ToIntSliceE L i).2 ≠ none → (ToIntSliceE L i).1 = some []) ∧
    ((ToSliceE i).2 ≠ none → (ToSliceE i).1 = none) ∧
    (∀ r e, ToStringSliceE L i = .returns (r, some e) → r = none) ∧
    ToIntSliceE L .nil = (some [], some (.unableToCast "[]int")) ∧
    (∀ n : Int, ToIntSliceE L (.int n) = (some [], some (.unableToCast "[]int"))) := by
  refine ⟨?_, ?_, ?_, ?_, ?_, ?_, rfl, fun _ => rfl⟩
  · intro r e
    cases i <;> simp [ToStringMapStringE, Outcome.map_eq_returns] <;> intro h _ <;> exact h.symm
  · intro r e
    cases i <;> simp [ToStringMapBoolE, Outcome.map_eq_returns] <;> intro h _ <;> exact h.symm
  · intro r e
    cases i <;> simp [ToStringMapE, Outcome.map_eq_returns] <;> intro h _ <;> exact h.symm
  · cases i <;> simp [ToIntSliceE, reflectElems] <;> split <;> simp
  · cases i <;> simp [ToSliceE]
  · intro r e
    cases i <;> simp [ToStringSliceE, Outcome.map_eq_returns] <;> intro h _ <;> exact h.symm

/-- C8: on a string `s`, `ToStringSliceE` succeeds and returns, in order, the
maximal runs of non-whitespace characters of `s` (and that list is unique); no
returned word is empty or contains whitespace; an empty or whitespace-only `s`
yields the empty sequence; and "  a  b " yields ["a", "b"]. -/
theorem C8_ToStringSliceE_fields (L : Lib) (s : String) :
    (∃ ws, ToStringSliceE L (.string s) = .returns (some ws, none) ∧
      MaximalRuns s.toList (ws.map String.toList) ∧
      (∀ rs, MaximalRuns s.toList rs → rs = ws.map String.toList) ∧
      (∀ w ∈ ws, w ≠ "" ∧ ∀ c ∈ w.toList, isSpace c = false) ∧
      ((∀ c ∈ s.toList, isSpace c = true) → ws = [])) ∧
    ToStringSliceE L (.string "") = .returns (some [], none) ∧
    ToStringSliceE L (.string "  a  b ") = .returns (some ["a", "b"], none) := by
  refine ⟨⟨Fields s, rfl, ?_, ?_, ?_, ?_⟩, ?_, ?_⟩
  · obtain ⟨rs, hrs⟩ := MaximalRuns_exists s.toList
    rw [Fields_of_runs s rs hrs, map_toList_mk]
    exact hrs
  · intro rs hrs
    rw [Fields_of_runs s rs hrs, map_toList_mk]
  · obtain ⟨rs, hrs⟩ := MaximalRuns_exists s.toList
    rw [Fields_of_runs s rs hrs]
    intro w hw
    obtain ⟨r, hr, rfl⟩ := List.mem_map.mp hw
    obtain ⟨hne, hsp⟩ := MaximalRuns_words s.toList rs hrs r hr
    refine ⟨fun hc => hne ?_, hsp⟩
    have := congrArg String.toList hc
    simpa using this
  · intro hall
    rw [Fields_of_runs s [] (MaximalRuns_all_space s.toList hall)]
    rfl
  · show Outcome.returns (some (Fields ""), none) = _
    rw [show Fields "" = [] by decide]
  · show Outcome.returns (some (Fields "  a  b "), none) = _
    rw [show Fields "  a  b " = ["a", "b"] by decide]

/-- C9: `StringToDate` returns the time parsed by the earliest layout of its
list that accepts `s` (every layout before it rejects `s`), and it returns an
error exactly when no layout of the list accepts `s`. -/
theorem C9_StringToDate_first_layout (L : Lib) (s : String) :
    (∀ t, StringToDate L s = (t, none) ↔
      ∃ k l, dateLayouts[k]? = some l ∧ L.timeParse l s = some t ∧
        ∀ (j : Nat) (l2 : String), j < k → dateLayouts[j]? = some l2 → L.timeParse l2 s = none) ∧
    ((StringToDate L s).2 ≠ none ↔ ∀ l ∈ dateLayouts, L.timeParse l s = none) :=
  ⟨fun t => parseDateWith_ok L s dateLayouts t, parseDateWith_err L s dateLayouts⟩

/-- C10, as stated, fails: the layout list of `StringToDate` does not have fourteen entries. -/
theorem C10_layout_count_counterexample : ¬ (dateLayouts.length = 14) := by
  decide

/-- C10, amended: the fixed list of layouts that `StringToDate` tries has
exactly thirteen entries, beginning with RFC3339 followed by the timezone-less
ISO-8601 layout and ending with the two date-only layouts. -/
theorem C10_layout_list :
    (∀ (L : Lib) (s : String), StringToDate L s = parseDateWith L s dateLayouts) ∧
    dateLayouts.length = 13 ∧
    dateLayouts.take 2 = [RFC3339, "2006-01-02T15:04:05"] ∧
    dateLayouts.drop 11 = ["2006-01-02", "02 Jan 2006"] :=
  ⟨fun _ _ => rfl, rfl, rfl, rfl⟩

/-- C11, as stated, fails: on the fixed-width integer `int8(1)` (and likewise
`int16`, `int32`, `int64`) `ToBoolE` returns false together with an error. -/
theorem C11_ToBoolE_fixed_width_counterexample :
    ToBoolE (.int8 1) = (false, some (.unableToCast "bool")) ∧
    ToBoolE (.int16 1) = (false, some (.unableToCast "bool")) ∧
    ToBoolE (.int32 1) = (false, some (.unableToCast "bool")) ∧
    ToBoolE (.int64 1) = (false, some (.unableToCast "bool")) :=
  ⟨rfl, rfl, rfl, rfl⟩

/-- C11, amended: for every native `int` `n`, `ToBoolE(n)` returns false when
`n = 0` and true when `n` is nonzero, without error; for an integer of a fixed
width (`int8`, `int16`, `int32`, `int64`) `ToBoolE` returns false and an error. -/
theorem C11_ToBoolE_int (n : Int) :
    ToBoolE (.int 0) = (false, none) ∧
    (n ≠ 0 → ToBoolE (.int n) = (true, none)) ∧
    ToBoolE (.int n) = (decide (n ≠ 0), none) ∧
    ToBoolE (.int8 n) = (false, some (.unableToCast "bool")) ∧
    ToBoolE (.int16 n) = (false, some (.unableToCast "bool")) ∧
    ToBoolE (.int32 n) = (false, some (.unableToCast "bool")) ∧
    ToBoolE (.int64 n) = (false, some (.unableToCast "bool")) := by
  refine ⟨rfl, fun h => ?_, ?_, rfl, rfl, rfl, rfl⟩
  · show (if n ≠ 0 then (true, none) else (false, none)) = ((true, none) : Bool × Option Err)
    rw [if_pos h]
  · show (if n ≠ 0 then (true, none) else (false, none)) = ((decide (n ≠ 0), none) : Bool × Option Err)
    by_cases h : n ≠ 0
    · rw [if_pos h]; simp [h]
    · rw [if_neg h]; simp [h]

/-- C12: on the untyped `nil` the scalar coercions succeed with the zero
value, `ToBoolE(nil) = false`, `ToIntE(nil) = 0`, `ToStringE(nil) = ""`, each
with no error; and for a boolean `b`, `ToIntE(b)` is 1 when `b` is true and 0
when `b` is false, with no error. -/
theorem C12_nil_and_bool_inputs (L : Lib) (b : Bool) :
    ToBoolE .nil = (false, none) ∧
    ToIntE L .nil = (0, none) ∧
    ToStringE L .nil = .returns ("", none) ∧
    ToIntE L (.bool true) = (1, none) ∧
    ToIntE L (.bool false) = (0, none) ∧
    ToIntE L (.bool b) = (if b = true then 1 else 0, none) := by
  refine ⟨rfl, rfl, rfl, rfl, rfl, ?_⟩
  cases b <;> rfl

/-- C13, as stated, fails: the texts "0b11", "0o17" and "1_000" are no
literals of the grammar the claim describes (a leading "0" selects octal, and
"b", "o" and "_" are no digits), yet `ToIntE` converts them, to 3, 15 and 1000. -/
theorem C13_extended_literals_counterexample :
    (specParseInt "0b11" = none ∧ ToIntE demoLib (.string "0b11") = (3, none)) ∧
    (specParseInt "0o17" = none ∧ ToIntE demoLib (.string "0o17") = (15, none)) ∧
    (specParseInt "1_000" = none ∧ ToIntE demoLib (.string "1_000") = (1000, none)) := by
  decide

/-- C13, amended: for every string `s` that has no underscore and does not
start, behind an optional sign, with "0b", "0B", "0o" or "0O", `ToIntE(s)`
parses `s` as an optionally signed integer literal with auto-detected base (a
"0x" start selects hexadecimal, a leading "0" octal, otherwise decimal) and
returns its value with no error; when `s` is no valid literal of its base, or
its value does not fit the native `int`, `ToIntE` returns 0 and an error. -/
theorem C13_ToIntE_string_literal (L : Lib) (s : String) (h : extendedForm s = false) :
    ToIntE L (.string s) =
      match specParseInt s with
      | some v => (v, none)
      | none => (0, some (.unableToCast "int")) := by
  obtain ⟨hok, herr⟩ := ParseInt_spec s h
  have hT : ToIntE L (.string s) =
      match ParseInt s with
      | (v, none) => (toInt v, none)
      | (_, some _) => (0, some (.unableToCast "int")) := rfl
  rw [hT]
  cases hs : specParseInt s with
  | none =>
    have he := herr hs
    generalize ParseInt s = r at he
    obtain ⟨v, e⟩ := r
    cases e with
    | none => exact absurd rfl he
    | some e => rfl
  | some v =>
    obtain ⟨hp, h1, h2⟩ := hok v hs
    rw [hp]
    show (toInt v, none) = (v, none)
    rw [toInt_of_range v h1 h2]

/-- C13 on the examples of the claim: "0x1F" gives 31, "017" gives 15, "17"
gives 17, "-17" gives -17, and "08" and "9223372036854775808" are rejected. -/
theorem C13_ToIntE_string_literal_witness :
    ToIntE demoLib (.string "0x1F") = (31, none) ∧
    ToIntE demoLib (.string "017") = (15, none) ∧
    ToIntE demoLib (.string "17") = (17, none) ∧
    ToIntE demoLib (.string "-17") = (-17, none) ∧
    ToIntE demoLib (.string "08") = (0, some (.unableToCast "int")) ∧
    ToIntE demoLib (.string "9223372036854775808") = (0, some (.unableToCast "int")) :=
  ⟨(C13_ToIntE_string_literal demoLib "0x1F" (by decide)).trans (by decide),
    (C13_ToIntE_string_literal demoLib "017" (by decide)).trans (by decide),
    (C13_ToIntE_string_literal demoLib "17" (by decide)).trans (by decide),
    (C13_ToIntE_string_literal demoLib "-17" (by decide)).trans (by decide),
    (C13_ToIntE_string_literal demoLib "08" (by decide)).trans (by decide),
    (C13_ToIntE_string_literal demoLib "9223372036854775808" (by decide)).trans (by decide)⟩

/-- C14, a defect of the code: on a pointer to an interface variable that
holds a non-nil pointer, `indirect` stops at the interface variable and
returns the pointer it holds, so the result is a non-nil pointer and applying
`indirect` again changes it.  On every other input the claim holds: a
non-pointer (or the untyped `nil`) is returned unchanged, a pointer step is
followed, and when the chain runs through variables of concrete type the
result is never a non-nil pointer and `indirect` is idempotent. -/
theorem C14_indirect_stops_at_interface_variable :
    (indirect (.ptrIface (.ptr Methods.none (.int 1))) = .ptr Methods.none (.int 1) ∧
      isNonNilPointer (indirect (.ptrIface (.ptr Methods.none (.int 1)))) = true ∧
      indirect (indirect (.ptrIface (.ptr Methods.none (.int 1)))) = .int 1 ∧
      indirect (indirect (.ptrIface (.ptr Methods.none (.int 1))))
        ≠ indirect (.ptrIface (.ptr Methods.none (.int 1)))) ∧
    (∀ a, isPointer a = false → indirect a = a) ∧
    (∀ m v, indirect (.ptr m v) = indirect v) ∧
    (∀ a, concreteChain a = true →
      isNonNilPointer (indirect a) = false ∧ indirect (indirect a) = indirect a) :=
  ⟨⟨rfl, rfl, rfl, fun h => Value.noConfusion h⟩, indirect_of_not_pointer, fun _ _ => rfl,
    indirect_concrete⟩

/-- C15, a defect of the code (the one of C14): on a pointer to an interface
variable that holds a pointer to `v`, `ToIntE` and `ToBoolE` return an error
although they accept `v` itself.  Through pointers to variables of concrete
type the coercions are transparent, and `ToBoolE` of a boolean, of a pointer
to it and of a pointer to a pointer to it is the boolean, with no error. -/
theorem C15_transparency_breaks_at_interface_variable (L : Lib) :
    (ToIntE L (.ptrIface (.ptr Methods.none (.int 1))) = (0, some (.unableToCast "int")) ∧
      ToIntE L (.ptr Methods.none (.int 1)) = (1, none) ∧
      ToIntE L (.int 1) = (1, none) ∧
      ToBoolE (.ptrIface (.ptr Methods.none (.bool true))) = (false, some (.unableToCast "bool")) ∧
      ToBoolE (.ptr Methods.none (.bool true)) = (true, none) ∧
      ToBoolE (.bool true) = (true, none)) ∧
    (∀ (ms : List Methods) (v : Value),
      ToBoolE (pointerChain ms v) = ToBoolE v ∧
      ToIntE L (pointerChain ms v) = ToIntE L v ∧
      ToFloat64E L (pointerChain ms v) = ToFloat64E L v ∧
      ToTimeE L (pointerChain ms v) = ToTimeE L v ∧
      ToDurationE L (pointerChain ms v) = ToDurationE L v) ∧
    (∀ (b : Bool) (m1 m2 : Methods),
      ToBoolE (.bool b) = (b, none) ∧
      ToBoolE (.ptr m1 (.bool b)) = (b, none) ∧
      ToBoolE (.ptr m1 (.ptr m2 (.bool b))) = (b, none)) := by
  refine ⟨⟨rfl, rfl, rfl, rfl, rfl, rfl⟩, fun ms v => ?_, fun _ _ _ => ⟨rfl, rfl, rfl⟩⟩
  unfold ToBoolE ToIntE ToFloat64E ToTimeE ToDurationE
  rw [indirect_pointerChain]
  exact ⟨rfl, rfl, rfl, rfl, rfl⟩

/-- C16, a defect of the code (the one of C14): a pointer to an interface
variable that holds a non-nil pointer with neither capability is dereferenced
once, and the pointer held is returned although it is none of a value with a
capability, a non-pointer value or a nil pointer; `ToStringE` then fails on it.
The rest of the claim holds: a non-nil pointer whose own type implements
`fmt.Stringer` or `error` is returned as it is and `ToStringE` returns its
rendering with no error, whatever it points to; a pointer with neither
capability is dereferenced; and along variables of concrete type the value
reached has a capability, is no pointer or is a nil pointer. -/
theorem C16_stringer_pointer_and_interface_variable (L : Lib) :
    (indirectToStringerOrError (.ptrIface (.ptr Methods.none (.int 1)))
        = .ptr Methods.none (.int 1) ∧
      restsForString (indirectToStringerOrError (.ptrIface (.ptr Methods.none (.int 1)))) = false ∧
      ToStringE L (.ptrIface (.ptr Methods.none (.int 1)))
        = .returns ("", some (.unableToCast "string")) ∧
      ToStringE L (.ptr Methods.none (.int 1)) = .returns ("1", none)) ∧
    (∀ (m : Methods) (v : Value), m.implements = true →
      indirectToStringerOrError (.ptr m v) = .ptr m v ∧
      ToStringE L (.ptr m v) = .returns (renderMethods m) ∧
      (∃ t, ToStringE L (.ptr m v) = .returns (t, none)) ∧
      (∀ t, m.stringer = some t → ToStringE L (.ptr m v) = .returns (t, none)) ∧
      (∀ t, m.stringer = none → m.error = some t →
        ToStringE L (.ptr m v) = .returns (t, none))) ∧
    (∀ (m : Methods) (v : Value), m.implements = false →
      indirectToStringerOrError (.ptr m v) = indirectToStringerOrError v) ∧
    (∀ a, concreteChain a = true → restsForString (indirectToStringerOrError a) = true) := by
  refine ⟨⟨rfl, rfl, rfl, ?_⟩, fun m v hm => ?_, fun m v hm => ?_,
    indirectToStringerOrError_concrete⟩
  · show Outcome.returns (FormatInt (toInt 1), none) = _
    rw [FormatInt_one]
  · have hi : indirectToStringerOrError (.ptr m v) = .ptr m v := by
      simp [indirectToStringerOrError, hm]
    have hs : ToStringE L (.ptr m v) = .returns (renderMethods m) := by
      unfold ToStringE
      rw [hi]
    obtain ⟨h1, h2, h3⟩ := renderMethods_of_implements m hm
    refine ⟨hi, hs, ?_, ?_, ?_⟩
    · refine ⟨(renderMethods m).1, ?_⟩
      rw [hs, ← h1]
    · intro t ht; rw [hs, h2 t ht]
    · intro t hn ht; rw [hs, h3 t hn ht]
  · simp [indirectToStringerOrError, hm]

/-- C17, a defect of the code (the one of C5): on the sequence
`["a", (*time.Time)(nil)]`, whose second element is a nil pointer of a type
with a value-receiver `String()`, `ToStringSliceE` panics inside `ToString`
and returns neither a sequence nor an error; `ToString` panics exactly on the
inputs that lead to such a pointer.  On every `[]interface{}` whose elements
`ToString` can render without a panic the claim holds: no error, a sequence of
the length of `xs` whose `j`-th element is `ToString(xs[j])`, and an element
that `ToStringE` rejects does not fail the call but appears as the empty
string. -/
theorem C17_ToStringSliceE_panics_on_nil_value_receiver (L : Lib) :
    ToStringSliceE L (.sliceAny (some [.string "a", .ptrNilValueMethod])) = .panics ∧
    (∀ x, ToString L x = .panics ↔ indirectToStringerOrError x = .ptrNilValueMethod) ∧
    (∀ xs : Option (List Value), (∀ x ∈ elems xs, ToString L x ≠ .panics) →
      ∃ r, ToStringSliceE L (.sliceAny xs) = .returns (r, none) ∧
        (elems r).length = (elems xs).length ∧
        (elems r).map Outcome.returns = (elems xs).map (ToString L) ∧
        (∀ (j : Nat) (x : Value), (elems xs)[j]? = some x →
          ∃ t, (elems r)[j]? = some t ∧ ToString L x = .returns t)) ∧
    (∀ x s e, ToStringE L x = .returns (s, some e) → ToString L x = .returns "") ∧
    ToStringSliceE L (.sliceAny (some [.string "a", .bool true, .string "b"]))
      = .returns (some ["a", "", "b"], none) := by
  refine ⟨rfl, ToString_panics_iff L, fun xs hp => ?_, fun x s e h => ?_, rfl⟩
  · have hmap : elems ((elems xs).foldl (fun a u => goAppend a ((ToString L u).getD "")) none)
        = (elems xs).map (fun u => (ToString L u).getD "") := by
      rw [foldl_goAppend]
      rfl
    have hret : (elems xs).map (ToString L)
        = ((elems xs).map (fun u => (ToString L u).getD "")).map Outcome.returns :=
      map_ToString_eq L (fun u : Value => u) (elems xs) hp
    refine ⟨(elems xs).foldl (fun a u => goAppend a ((ToString L u).getD "")) none,
      ?_, ?_, ?_, ?_⟩
    · show Outcome.map _ (rangeLoop _ (elems xs) none) = _
      rw [stringSliceLoop_returns L (elems xs) hp none]
      rfl
    · rw [hmap, List.length_map]
    · rw [hmap, hret]
    · intro j x hj
      refine ⟨(ToString L x).getD "", ?_, ?_⟩
      · rw [hmap, List.getElem?_map, hj]
        rfl
      · exact ToString_eq_getD L x (hp x (List.getElem?_mem hj))
  · rw [ToString_of_ToStringE L x s (some e) h, ToStringE_err_empty L x s e h]

/-- C18: a nil pointer whose type implements neither `fmt.Stringer` nor
`error` is not the untyped `nil`: `indirect` and `indirectToStringerOrError`
return it as it is, and `ToBoolE`, `ToIntE` and `ToStringE` return an error on
it (with false, 0 and ""), while all three succeed on the untyped `nil`. -/
theorem C18_nil_pointer_is_not_nil (L : Lib) (m : Methods) (h : m.implements = false) :
    indirect (.ptrNil m) = .ptrNil m ∧
    indirectToStringerOrError (.ptrNil m) = .ptrNil m ∧
    ToBoolE (.ptrNil m) = (false, some (.unableToCast "bool")) ∧
    ToIntE L (.ptrNil m) = (0, some (.unableToCast "int")) ∧
    ToStringE L (.ptrNil m) = .returns ("", some (.unableToCast "string")) ∧
    (ToBoolE .nil).2 = none ∧ (ToIntE L .nil).2 = none ∧
    ToStringE L .nil = .returns ("", none) :=
  ⟨rfl, rfl, rfl, rfl, congrArg Outcome.returns (renderMethods_of_not_implements m h), rfl, rfl,
    rfl⟩

/-- C18 on a nil pointer of a type without methods, such as `(*int)(nil)`. -/
theorem C18_nil_pointer_is_not_nil_witness :
    Methods.none.implements = false ∧
    ToBoolE (.ptrNil Methods.none) = (false, some (.unableToCast "bool")) ∧
    ToIntE demoLib (.ptrNil Methods.none) = (0, some (.unableToCast "int")) ∧
    ToStringE demoLib (.ptrNil Methods.none) = .returns ("", some (.unableToCast "string")) :=
  ⟨rfl, (C18_nil_pointer_is_not_nil demoLib Methods.none rfl).2.2.1,
    (C18_nil_pointer_is_not_nil demoLib Methods.none rfl).2.2.2.1,
    (C18_nil_pointer_is_not_nil demoLib Methods.none rfl).2.2.2.2.1⟩

/-- C19, a defect of the code (the one of C5): on the map
`{(*time.Time)(nil): 1}`, whose key is a nil pointer of a type with a
value-receiver `String()`, `ToStringMapE` panics inside `ToString` and returns
neither a map nor an error.  On every `map[interface{}]interface{}` whose keys
`ToString` can render without a panic the claim holds: no error, a map whose
key set is exactly the set of `ToString(k)` for the keys `k` of `m`; every
entry of the result carries, unchanged, the value `m` holds at some key with
that rendering; the result never has more entries than `m`, and it has fewer
exactly when two keys of `m` share a rendering. -/
theorem C19_ToStringMapE_panics_on_nil_value_receiver (L : Lib) :
    ToStringMapE L (.mapAny (some [(.ptrNilValueMethod, .int 1)])) = .panics ∧
    (∀ m : Option (List (Value × Value)), (∀ e ∈ elems m, ToString L e.1 ≠ .panics) →
      ∃ r, ToStringMapE L (.mapAny m) = .returns (some r, none) ∧
        (r.map Prod.fst).Nodup ∧
        (∀ k, k ∈ r.map Prod.fst ↔ ∃ e ∈ elems m, ToString L e.1 = .returns k) ∧
        (∀ e2 ∈ r, ∃ e ∈ elems m, ToString L e.1 = .returns e2.1 ∧ e.2 = e2.2) ∧
        r.length ≤ (elems m).length ∧
        (r.length < (elems m).length ↔
          ¬ ((elems m).map (fun e => ToString L e.1)).Nodup)) := by
  refine ⟨rfl, fun m hp => ?_⟩
  obtain ⟨h1, h2, h3⟩ := foldl_mapSet_keys (fun e : Value × Value => (ToString L e.1).getD "")
    (fun e => e.2) (elems m) [] (by simp)
  have hmem : ∀ k, k ∈ ((elems m).foldl
      (fun m e => mapSet m ((ToString L e.1).getD "") e.2) []).map Prod.fst
      ↔ k ∈ (elems m).map (fun e => (ToString L e.1).getD "") := by
    intro k
    rw [h2 k]
    simp
  have hlen := length_of_nodup_same_members _ _ h1 hmem
  simp only [List.length_map] at hlen
  have hkeys := map_ToString_eq L (fun e : Value × Value => e.1) (elems m) hp
  have hnd : ((elems m).map (fun e => ToString L e.1)).Nodup
      ↔ ((elems m).map (fun e => (ToString L e.1).getD "")).Nodup := by
    rw [hkeys]
    exact List.nodup_map_iff Outcome.returns_injective
  refine ⟨_, ?_, h1, ?_, ?_, hlen.1, ?_⟩
  · show Outcome.map _ (rangeLoop _ (elems m) []) = _
    rw [anyMapLoop_returns L (elems m) hp []]
    rfl
  · intro k
    rw [hmem k, List.mem_map]
    constructor
    · rintro ⟨e, he, hk⟩
      exact ⟨e, he, by rw [← hk]; exact ToString_eq_getD L e.1 (hp e he)⟩
    · rintro ⟨e, he, hk⟩
      exact ⟨e, he, by rw [hk]; rfl⟩
  · intro e2 he2
    rcases h3 e2 he2 with h | ⟨e, he, hf, hg⟩
    · simp at h
    · exact ⟨e, he, by rw [← hf]; exact ToString_eq_getD L e.1 (hp e he), hg⟩
  · rw [hnd]
    exact hlen.2

/-- C20, as stated, fails: `ToStringE` rejects `int16(5)` and `ToIntE` accepts
it, but `ToBoolE` does not accept it. -/
theorem C20_ToBoolE_rejects_fixed_width_counterexample :
    ToStringE demoLib (.int16 5) = .returns ("", some (.unableToCast "string")) ∧
    ToIntE demoLib (.int16 5) = (5, none) ∧
    (ToBoolE (.int16 5)).2 ≠ none :=
  ⟨rfl, by decide, by decide⟩

/-- C20, amended: among native scalars `ToStringE` accepts only string, native
`int` and `float64`; for every boolean and every fixed-width signed integer
(`int8`, `int16`, `int32`, `int64`) it returns the empty string together with
an error, so `ToString` of such a value is "", although `ToIntE` accepts the
same value; `ToBoolE` accepts the boolean and rejects the fixed-width integers. -/
theorem C20_ToStringE_native_scalars (L : Lib) (b : Bool) (n : Int) (s : String) (f : Float64) :
    (ToStringE L (.string s) = .returns (s, none) ∧
      ToStringE L (.int n) = .returns (FormatInt (toInt n), none) ∧
      ToStringE L (.float64 f) = .returns (L.FormatFloat f, none)) ∧
    (ToStringE L (.bool b) = .returns ("", some (.unableToCast "string")) ∧
      ToStringE L (.int8 n) = .returns ("", some (.unableToCast "string")) ∧
      ToStringE L (.int16 n) = .returns ("", some (.unableToCast "string")) ∧
      ToStringE L (.int32 n) = .returns ("", some (.unableToCast "string")) ∧
      ToStringE L (.int64 n) = .returns ("", some (.unableToCast "string"))) ∧
    (ToString L (.bool b) = .returns "" ∧ ToString L (.int8 n) = .returns "" ∧
      ToString L (.int16 n) = .returns "" ∧ ToString L (.int32 n) = .returns "" ∧
      ToString L (.int64 n) = .returns "") ∧
    ((ToIntE L (.bool b)).2 = none ∧ (ToIntE L (.int8 n)).2 = none ∧
      (ToIntE L (.int16 n)).2 = none ∧ (ToIntE L (.int32 n)).2 = none ∧
      (ToIntE L (.int64 n)).2 = none) ∧
    (ToBoolE (.bool b) = (b, none) ∧ (ToBoolE (.int8 n)).2 ≠ none ∧
      (ToBoolE (.int16 n)).2 ≠ none ∧ (ToBoolE (.int32 n)).2 ≠ none ∧
      (ToBoolE (.int64 n)).2 ≠ none) := by
  refine ⟨⟨rfl, rfl, rfl⟩, ⟨rfl, rfl, rfl, rfl, rfl⟩, ⟨rfl, rfl, rfl, rfl, rfl⟩,
    ⟨?_, rfl, rfl, rfl, rfl⟩, ⟨rfl, ?_, ?_, ?_, ?_⟩⟩
  · cases b <;> rfl
  all_goals exact fun h => Option.noConfusion h

end Cast
